import Mathlib

/-!
# modsecurity-go: the rule model and its evaluation (`modsecurity/sec_rule.go`)

A shallow embedding of `sec_rule.go`.

* A `*Transaction` is passed by reference to every capability, so every capability
  is a function on the transaction: `Fetch`, `Trans` and `Operator.Match` return
  their result together with the transaction they leave behind, `Action.Do`
  returns the transaction it leaves behind.
* The capability calls the engine makes are recorded, in the order they happen,
  in a ghost call log that travels with the transaction (`World`).  The log is
  only ever appended to (by the `call*` wrappers); the engine never reads it.
* The two `logrus.Debugf` lines are diagnostics without effect on the transaction
  or on control flow; they are left out.
* A Go run-time panic (index out of range) is the `Except.error` outcome, carrying
  the world at the moment of the panic.
* Go `int` is `Int`: the code only compares and indexes, it does no arithmetic.
* Interface values and rule pointers are taken to be non-nil.
-/

namespace modsecurity

set_option linter.dupNamespace false

/-! ## Phases and action groups (the two `iota` blocks) -/

def PhaseBegin : Int := 0
def PhaseConnection : Int := 1
def PhaseRequestHeaders : Int := 2
def PhaseRequestBody : Int := 3
def PhaseResponseHeaders : Int := 4
def PhaseResponseBody : Int := 5
def PhaseLogging : Int := 6
def PhaseEnd : Int := 7

def ActionGroupMetaData : Int := 0
def ActionGroupData : Int := 1
def ActionGroupNonDisruptive : Int := 2
def ActionGroupDisruptive : Int := 3
def ActionGroupFlow : Int := 4
def ActionGroupCount : Int := 5

/-! ## The transaction and the capability interfaces -/

/-- Modelled from the spec: the `Transaction` struct is declared outside
`sec_rule.go`; the rule engine reads its `Abort` field and hands the rest,
untouched, to the capabilities.  The rest is the opaque `store`. -/
structure Transaction (σ : Type) where
  Abort : Bool
  store : σ

/-- The `Variable` interface (`Include` and `Exclude` are configuration-time
methods that the engine never calls). -/
structure Variable (σ : Type) where
  Name : String
  Fetch : Transaction σ → List String × Transaction σ

/-- The `Trans` interface. -/
structure Trans (σ : Type) where
  Name : String
  Trans : Transaction σ → String → String × Transaction σ

/-- The `Operator` interface. -/
structure Operator (σ : Type) where
  Name : String
  Args : String
  Match : Transaction σ → String → Bool × Transaction σ

/-- The `Action` interface; `ActionGroup()` is a constant of the action. -/
structure Action (σ : Type) where
  Name : String
  Value : String
  Do : Transaction σ → Transaction σ
  ActionGroup : Int

/-- The `SecRule` struct. -/
inductive SecRule (σ : Type) where
  | mk (id : Int) (phase : Int) (vars : List (Variable σ)) (tfs : List (Trans σ))
      (op : Operator σ) (acts : List (Action σ)) (neg : Bool)
      (md : List (String × List String)) (subs : List (SecRule σ))

variable {σ : Type}

def SecRule.Id : SecRule σ → Int
  | .mk id _ _ _ _ _ _ _ _ => id

def SecRule.Phase : SecRule σ → Int
  | .mk _ phase _ _ _ _ _ _ _ => phase

def SecRule.Variables : SecRule σ → List (Variable σ)
  | .mk _ _ vars _ _ _ _ _ _ => vars

def SecRule.Trans : SecRule σ → List (Trans σ)
  | .mk _ _ _ tfs _ _ _ _ _ => tfs

def SecRule.Operator : SecRule σ → Operator σ
  | .mk _ _ _ _ op _ _ _ _ => op

def SecRule.Actions : SecRule σ → List (Action σ)
  | .mk _ _ _ _ _ acts _ _ _ => acts

def SecRule.Not : SecRule σ → Bool
  | .mk _ _ _ _ _ _ neg _ _ => neg

def SecRule.MetaData : SecRule σ → List (String × List String)
  | .mk _ _ _ _ _ _ _ md _ => md

def SecRule.SubRules : SecRule σ → List (SecRule σ)
  | .mk _ _ _ _ _ _ _ _ subs => subs

/-! ## The call log -/

/-- One call made by the engine. -/
inductive Event (σ : Type) where
  | fetch (v : Variable σ)
  | trans (f : Trans σ) (s : String)
  | operatorMatch (o : Operator σ) (v : String)
  | actionDo (a : Action σ)

/-- The transaction together with the calls made on it so far, oldest first. -/
structure World (σ : Type) where
  tx : Transaction σ
  log : List (Event σ)

/-- The actions whose `Do` was called, in call order. -/
def actionCalls (l : List (Event σ)) : List (Action σ) :=
  l.filterMap fun e => match e with
    | .actionDo a => some a
    | _ => none

/-- The values `Operator.Match` was called on, in call order. -/
def operatorCalls (l : List (Event σ)) : List String :=
  l.filterMap fun e => match e with
    | .operatorMatch _ v => some v
    | _ => none

/-- Call of `Variable.Fetch(t)`. -/
def callFetch (v : Variable σ) (w : World σ) : List String × World σ :=
  ((v.Fetch w.tx).1, ⟨(v.Fetch w.tx).2, w.log ++ [Event.fetch v]⟩)

/-- Call of `t.Trans(tr, s)`. -/
def callTrans (f : Trans σ) (w : World σ) (s : String) : String × World σ :=
  ((f.Trans w.tx s).1, ⟨(f.Trans w.tx s).2, w.log ++ [Event.trans f s]⟩)

/-- Call of `r.Operator.Match(t, v)`. -/
def callMatch (o : Operator σ) (w : World σ) (v : String) : Bool × World σ :=
  ((o.Match w.tx v).1, ⟨(o.Match w.tx v).2, w.log ++ [Event.operatorMatch o v]⟩)

/-- Call of `action.Do(t)`. -/
def callDo (a : Action σ) (w : World σ) : World σ :=
  ⟨a.Do w.tx, w.log ++ [Event.actionDo a]⟩

/-! ## `SecRule` -/

/-- `SecRule.TransformString`: `for _, t := range r.Trans { s = t.Trans(tr, s) }`. -/
def SecRule.TransformString (r : SecRule σ) (w : World σ) (s : String) : String × World σ :=
  r.Trans.foldl (fun (acc : String × World σ) f => callTrans f acc.2 acc.1) (s, w)

/-- `SecRule.TransformVariable`. -/
def SecRule.TransformVariable (r : SecRule σ) (w : World σ) (vr : Variable σ) :
    List String × World σ :=
  (callFetch vr w).1.foldl
    (fun (acc : List String × World σ) v =>
      (acc.1 ++ [(r.TransformString acc.2 v).1], (r.TransformString acc.2 v).2))
    ([], (callFetch vr w).2)

/-- `SecRule.FetchAllTransformedVariables`. -/
def SecRule.FetchAllTransformedVariables (r : SecRule σ) (w : World σ) :
    List String × World σ :=
  r.Variables.foldl
    (fun (acc : List String × World σ) v =>
      (acc.1 ++ (r.TransformVariable acc.2 v).1, (r.TransformVariable acc.2 v).2))
    ([], w)

/-- The loop of `SecRule.Match` over the transformed values. -/
def SecRule.matchLoop (r : SecRule σ) : List String → World σ → Bool × World σ
  | [], w => (false, w)
  | v :: vs, w =>
    if w.tx.Abort then (false, w)
    else if r.Not != (callMatch r.Operator w v).1 then (true, (callMatch r.Operator w v).2)
    else SecRule.matchLoop r vs (callMatch r.Operator w v).2

/-- `SecRule.Match`. -/
def SecRule.Match (r : SecRule σ) (w : World σ) : Bool × World σ :=
  r.matchLoop (r.FetchAllTransformedVariables w).1 (r.FetchAllTransformedVariables w).2

/-- The slice index expression `p[i]` of Go: `none` is the index-out-of-range panic. -/
def sliceIndex {α : Type} (p : List α) (i : Int) : Option α :=
  if 0 ≤ i then p[i.toNat]? else none

/-- The statement `m[g] = append(m[g], a)` on a slice of slices; `none` is the
index-out-of-range panic. -/
def sliceAppendAt {α : Type} (m : List (List α)) (g : Int) (a : α) : Option (List (List α)) :=
  match sliceIndex m g with
  | some bucket => some (m.set g.toNat (bucket ++ [a]))
  | none => none

/-- The first loop of `ActionsExecute`: every action is appended to the bucket
of its group. -/
def groupActions : List (Action σ) → List (List (Action σ)) → Option (List (List (Action σ)))
  | [], actionMap => some actionMap
  | a :: as, actionMap =>
    match sliceAppendAt actionMap a.ActionGroup a with
    | some actionMap1 => groupActions as actionMap1
    | none => none

/-- The second loop of `ActionsExecute`: the buckets in index order, each bucket
in its own order. -/
def runBuckets (actionMap : List (List (Action σ))) (w : World σ) : World σ :=
  actionMap.foldl (fun w1 actions => actions.foldl (fun w2 action => callDo action w2) w1) w

/-- `ActionsExecute`. -/
def ActionsExecute (w : World σ) (as : List (Action σ)) : Except (World σ) (World σ) :=
  match groupActions as (List.replicate ActionGroupCount.toNat []) with
  | some actionMap => .ok (runBuckets actionMap w)
  | none => .error w

/-- The first loop of `SecRule.Do` over the sub-rules: `false` is the early `return`. -/
def SecRule.subRulesMatch : List (SecRule σ) → World σ → Bool × World σ
  | [], w => (true, w)
  | sub :: rest, w =>
    if !(sub.Match w).1 then (false, (sub.Match w).2)
    else SecRule.subRulesMatch rest (sub.Match w).2

/-- The second loop of `SecRule.Do` over the sub-rules. -/
def SecRule.subRulesExecute : List (SecRule σ) → World σ → Except (World σ) (World σ)
  | [], w => .ok w
  | sub :: rest, w =>
    match ActionsExecute w sub.Actions with
    | .ok w1 => SecRule.subRulesExecute rest w1
    | .error w1 => .error w1

/-- `SecRule.Do`. -/
def SecRule.Do (r : SecRule σ) (w : World σ) : Except (World σ) (World σ) :=
  if !(r.Match w).1 then .ok (r.Match w).2
  else if !(SecRule.subRulesMatch r.SubRules (r.Match w).2).1 then
    .ok (SecRule.subRulesMatch r.SubRules (r.Match w).2).2
  else
    match ActionsExecute (SecRule.subRulesMatch r.SubRules (r.Match w).2).2 r.Actions with
    | .ok w1 => SecRule.subRulesExecute r.SubRules w1
    | .error w1 => .error w1

/-! ## `SecRuleSet` -/

/-- The `SecRuleSet` struct.  `Phases` is a Go map from phase to a slice of rules:
`none` is the nil map, a key that is absent reads as the empty slice. -/
structure SecRuleSet (σ : Type) where
  Phases : Option (Int → List (SecRule σ))
  DefaultActions : List (Action σ)

/-- `NewSecRuleSet`. -/
def NewSecRuleSet : SecRuleSet σ :=
  { Phases := some (fun _ => []), DefaultActions := [] }

/-- `SecRuleSet.ExecuteDefaultActions`. -/
def SecRuleSet.ExecuteDefaultActions (rs : SecRuleSet σ) (w : World σ) :
    Except (World σ) (World σ) :=
  ActionsExecute w rs.DefaultActions

/-- `SecRuleSet.AddDefaultActions`. -/
def SecRuleSet.AddDefaultActions (rs : SecRuleSet σ) (rules : List (Action σ)) : SecRuleSet σ :=
  { rs with DefaultActions := rs.DefaultActions ++ rules }

/-- The loop of `SecRuleSet.AddRules` on the (non-nil) map. -/
def addRulesLoop : List (SecRule σ) → (Int → List (SecRule σ)) → (Int → List (SecRule σ))
  | [], phases => phases
  | rule :: rules, phases =>
    if rule.Phase ≥ PhaseEnd ∨ rule.Phase ≤ PhaseBegin then addRulesLoop rules phases
    else addRulesLoop rules
      (fun p => if p = rule.Phase then phases rule.Phase ++ [rule] else phases p)

/-- `SecRuleSet.AddRules`. -/
def SecRuleSet.AddRules (rs : SecRuleSet σ) (rules : List (SecRule σ)) : SecRuleSet σ :=
  let phases := match rs.Phases with
    | none => fun _ => []
    | some m => m
  { rs with Phases := some (addRulesLoop rules phases) }

/-- `SecRuleSet.Process`. -/
def SecRuleSet.Process (rs : SecRuleSet σ) (w : World σ) (phase : Int) (offset : Int) :
    Except (World σ) (World σ) :=
  match rs.Phases with
  | none => .ok w
  | some m =>
    let p := m phase
    if (p.length : Int) > offset then
      match sliceIndex p offset with
      | some rule => rule.Do w
      | none => .error w
    else .ok w

/-! ## Specification-side notions -/

/-- The stable partition of an action list by group: the MetaData actions, then
the Data, NonDisruptive, Disruptive and Flow ones, each group in the order of
the list. -/
def dispatchOrder (as : List (Action σ)) : List (Action σ) :=
  as.filter (fun a => a.ActionGroup = ActionGroupMetaData)
    ++ as.filter (fun a => a.ActionGroup = ActionGroupData)
    ++ as.filter (fun a => a.ActionGroup = ActionGroupNonDisruptive)
    ++ as.filter (fun a => a.ActionGroup = ActionGroupDisruptive)
    ++ as.filter (fun a => a.ActionGroup = ActionGroupFlow)

/-- Every action of the list reports one of the five groups. -/
def ValidGroups (as : List (Action σ)) : Prop :=
  ∀ a ∈ as, 0 ≤ a.ActionGroup ∧ a.ActionGroup < ActionGroupCount

/-- The transaction after the `Do` of every action of a list, in list order. -/
def doAll (as : List (Action σ)) (tx : Transaction σ) : Transaction σ :=
  as.foldl (fun t a => a.Do t) tx

/-- The verdict of a chain as the plain conjunction: the primary rule and then
every sub-rule is matched, each on the transaction left by the match before it,
and the verdicts are and-ed, without early exit.  The second component is the
world after all these matches. -/
def chainVerdict (r : SecRule σ) (w : World σ) : Bool × World σ :=
  r.SubRules.foldl (fun acc sub => (acc.1 && (sub.Match acc.2).1, (sub.Match acc.2).2))
    (r.Match w)

/-- The actions of a chain in the order they are to run: the primary rule's
actions in dispatch order, then each sub-rule's, in sub-rule order. -/
def chainActions (r : SecRule σ) : List (Action σ) :=
  dispatchOrder r.Actions ++ r.SubRules.flatMap (fun sub => dispatchOrder sub.Actions)

/-- All actions of the rule and of its sub-rules report one of the five groups. -/
def ChainValid (r : SecRule σ) : Prop :=
  ValidGroups r.Actions ∧ ∀ sub ∈ r.SubRules, ValidGroups sub.Actions

/-- The transaction after the operator has tested the values `vs`, one after
the other. -/
def afterTests (o : Operator σ) (vs : List String) (tx : Transaction σ) : Transaction σ :=
  vs.foldl (fun t v => (o.Match t v).2) tx

/-- The abort flag is clear each time the loop of `Match` comes to test a value:
for every value of the sequence `vals` whose predecessors have all failed to
match, the flag is clear once the predecessors have been tested, `tx` being the
transaction at the start of the loop. -/
def AbortClearAtTests (r : SecRule σ) (vals : List String) (tx : Transaction σ) : Prop :=
  ∀ p1 v p2, vals = p1 ++ v :: p2 →
    (∀ q1 u q2, p1 = q1 ++ u :: q2 →
      (r.Not != (r.Operator.Match (afterTests r.Operator q1 tx) u).1) = false) →
    (afterTests r.Operator p1 tx).Abort = false

/-- The world after the rules `subs` have been matched, one after the other. -/
def afterMatches (subs : List (SecRule σ)) (w : World σ) : World σ :=
  subs.foldl (fun w1 sub => (sub.Match w1).2) w

/-- The rule sequence of a phase, `rs.Phases[phase]`: reading a nil map, like
reading an absent key, yields the empty slice. -/
def SecRuleSet.bucket (rs : SecRuleSet σ) (phase : Int) : List (SecRule σ) :=
  match rs.Phases with
  | none => []
  | some m => m phase

/-- The rule set obtained from `NewSecRuleSet` by a sequence of `AddRules` calls,
one call per list of rules. -/
def buildRuleSet (calls : List (List (SecRule σ))) : SecRuleSet σ :=
  calls.foldl (fun rs rules => rs.AddRules rules) NewSecRuleSet

/-- Every rule stored under a phase carries that phase, and the phase lies
strictly between `PhaseBegin` and `PhaseEnd`. -/
def PhasesValid (rs : SecRuleSet σ) : Prop :=
  ∀ p, ∀ x ∈ rs.bucket p, x.Phase = p ∧ PhaseBegin < p ∧ p < PhaseEnd

/-! ## A small concrete configuration

The store of the example transactions is the list of argument values of the
request. -/

def exArgs : Variable (List String) :=
  { Name := "ARGS", Fetch := fun t => (t.store, t) }

def exOperator : Operator (List String) :=
  { Name := "streq", Args := "evil", Match := fun t v => (v == "evil", t) }

def exFlowA : Action (List String) :=
  { Name := "FlowA", Value := "", Do := fun t => t, ActionGroup := ActionGroupFlow }

def exDisruptiveB : Action (List String) :=
  { Name := "DisruptiveB", Value := "", Do := fun t => { t with Abort := true },
    ActionGroup := ActionGroupDisruptive }

def exMetaDataC : Action (List String) :=
  { Name := "MetaDataC", Value := "", Do := fun t => { t with store := t.store ++ ["C"] },
    ActionGroup := ActionGroupMetaData }

/-- A rule without sub-rules. -/
def exRule : SecRule (List String) :=
  .mk 1 PhaseRequestHeaders [exArgs] [] exOperator [exFlowA, exDisruptiveB, exMetaDataC] false [] []

/-- A sub-rule and a chain of one sub-rule. -/
def exSub : SecRule (List String) :=
  .mk 3 PhaseRequestHeaders [exArgs] [] exOperator [exMetaDataC] true [] []

def exChain : SecRule (List String) :=
  .mk 2 PhaseRequestHeaders [exArgs] [] exOperator [exFlowA, exDisruptiveB] false [] [exSub]

def exWorld : World (List String) :=
  ⟨⟨false, ["good", "evil"]⟩, []⟩

/-- An operator that sets the abort flag whenever it tests a value. -/
def exAbortingOperator : Operator (List String) :=
  { Name := "streq", Args := "evil", Match := fun t v => (v == "evil", { t with Abort := true }) }

def exFirstArg : Variable (List String) :=
  { Name := "ARGS:first", Fetch := fun t => (t.store.take 1, t) }

def exOtherArgs : Variable (List String) :=
  { Name := "ARGS:others", Fetch := fun t => (t.store.drop 1, t) }

/-- A rule with two variables whose operator aborts the transaction. -/
def exAbortRule : SecRule (List String) :=
  .mk 4 PhaseRequestHeaders [exFirstArg, exOtherArgs] [] exAbortingOperator [exMetaDataC] false [] []

def exEvilFirst : World (List String) :=
  ⟨⟨false, ["evil", "good"]⟩, []⟩

def exAborted : World (List String) :=
  ⟨⟨true, ["good", "evil"]⟩, []⟩

def exAppendA : Trans (List String) :=
  { Name := "A", Trans := fun t s => (s ++ "a", t) }

def exAppendB : Trans (List String) :=
  { Name := "B", Trans := fun t s => (s ++ "b", t) }

def exTransRule : SecRule (List String) :=
  .mk 5 PhaseRequestHeaders [exArgs] [exAppendA, exAppendB] exOperator [] false [] []

/-- A rule registered for the begin sentinel, and one for the end sentinel. -/
def exBeginRule : SecRule (List String) :=
  .mk 6 PhaseBegin [exArgs] [] exOperator [exDisruptiveB] false [] []

def exEndRule : SecRule (List String) :=
  .mk 7 PhaseEnd [exArgs] [] exOperator [exDisruptiveB] false [] []

def exCalls : List (List (SecRule (List String))) :=
  [[exBeginRule, exRule], [exEndRule, exChain]]

/-! ## Further specification-side notions and examples -/

/-- The values `vs` transformed one after the other, each by `TransformString`
on the world the transformation before it left. -/
def transformEach (r : SecRule σ) : List String → World σ → List String × World σ
  | [], w => ([], w)
  | v :: vs, w =>
    ((r.TransformString w v).1 :: (transformEach r vs (r.TransformString w v).2).1,
      (transformEach r vs (r.TransformString w v).2).2)

/-- The variable-major concatenation: the variables are fetched in list order,
the values of each are transformed in fetch order, and the transformed values of
a variable come before those of the variables after it. -/
def fetchEach (r : SecRule σ) : List (Variable σ) → World σ → List String × World σ
  | [], w => ([], w)
  | vr :: vrs, w =>
    ((transformEach r (callFetch vr w).1 (callFetch vr w).2).1
        ++ (fetchEach r vrs (transformEach r (callFetch vr w).1 (callFetch vr w).2).2).1,
      (fetchEach r vrs (transformEach r (callFetch vr w).1 (callFetch vr w).2).2).2)

/-- The lists of values the variables return from `Fetch`, one list per
variable, each fetched on the transaction as it is when its turn comes. -/
def fetchedLists (r : SecRule σ) : List (Variable σ) → World σ → List (List String)
  | [], _ => []
  | vr :: vrs, w =>
    (vr.Fetch w.tx).1
      :: fetchedLists r vrs (transformEach r (callFetch vr w).1 (callFetch vr w).2).2

/-- The value of `TransformString` on a bare transaction: the left fold of the
transforms. -/
def transformValue (r : SecRule σ) (tx : Transaction σ) (v : String) : String :=
  (r.Trans.foldl (fun acc f => f.Trans acc.2 acc.1) (v, tx)).1

def exEmptyWorld : World (List String) :=
  ⟨⟨false, []⟩, []⟩

/-- A rule over two variables with two transforms. -/
def exTwoVarRule : SecRule (List String) :=
  .mk 8 PhaseRequestBody [exOtherArgs, exFirstArg] [exAppendA, exAppendB] exOperator [] false [] []

def exThree : World (List String) :=
  ⟨⟨false, ["x", "y", "z"]⟩, []⟩

/-- The rule `s` with its `SubRules` field replaced by `subs`. -/
def SecRule.withSubRules : SecRule σ → List (SecRule σ) → SecRule σ
  | .mk id phase vars tfs op acts neg md _, subs => .mk id phase vars tfs op acts neg md subs

/-- The rule `s` with its `Not` flag replaced by `b`. -/
def SecRule.withNot : SecRule σ → Bool → SecRule σ
  | .mk id phase vars tfs op acts _ md subs, b => .mk id phase vars tfs op acts b md subs

/-- An operator that matches nothing. -/
def exNoMatch : Operator (List String) :=
  { Name := "unconditionalNoMatch", Args := "", Match := fun t _ => (false, t) }

/-- A rule that never matches and carries a disruptive action. -/
def exNever : SecRule (List String) :=
  .mk 9 PhaseRequestHeaders [exArgs] [] exNoMatch [exDisruptiveB] false [] []

/-- The world an operation leaves behind: the one it returns, or the one at the
panic. -/
def outcome : Except (World σ) (World σ) → World σ
  | .ok w => w
  | .error w => w

/-- Every `Fetch`, `Trans` and `Operator.Match` of the rule keeps the property
`P` of the transaction. -/
def SecRule.MatchKeeps (P : Transaction σ → Prop) (r : SecRule σ) : Prop :=
  (∀ v ∈ r.Variables, ∀ t, P t → P (v.Fetch t).2)
    ∧ (∀ f ∈ r.Trans, ∀ t s, P t → P (f.Trans t s).2)
    ∧ (∀ t v, P t → P (r.Operator.Match t v).2)

/-- Every capability of the rule, its actions included, keeps `P`. -/
def SecRule.Keeps (P : Transaction σ → Prop) (r : SecRule σ) : Prop :=
  r.MatchKeeps P ∧ ∀ a ∈ r.Actions, ∀ t, P t → P (a.Do t)

/-- Every capability of the rule and of its sub-rules keeps `P`. -/
def SecRule.ChainKeeps (P : Transaction σ → Prop) (r : SecRule σ) : Prop :=
  r.Keeps P ∧ ∀ sub ∈ r.SubRules, sub.Keeps P

/-- A chain none of whose capabilities touches the abort flag. -/
def exQuietSub : SecRule (List String) :=
  .mk 11 PhaseRequestHeaders [exArgs] [] exOperator [exMetaDataC] true [] []

def exQuiet : SecRule (List String) :=
  .mk 10 PhaseRequestHeaders [exArgs] [exAppendA] exNoMatch [exFlowA, exMetaDataC] true []
    [exQuietSub]

def exQuietSet : SecRuleSet (List String) :=
  (NewSecRuleSet.AddRules [exQuiet]).AddDefaultActions [exFlowA]

/-- A negated rule without variables. -/
def exNoVars : SecRule (List String) :=
  .mk 12 PhaseRequestHeaders [] [] exOperator [exDisruptiveB] true [] []

/-! ## The calls made by an operation, and the receivers -/

/-- The effect on the transaction of one logged capability call. -/
def Event.apply : Event σ → Transaction σ → Transaction σ
  | .fetch v, t => (v.Fetch t).2
  | .trans f s, t => (f.Trans t s).2
  | .operatorMatch o v, t => (o.Match t v).2
  | .actionDo a, t => a.Do t

/-- The transaction after the calls `evs`, made one after the other from `tx`. -/
def applyCalls (evs : List (Event σ)) (tx : Transaction σ) : Transaction σ :=
  evs.foldl (fun t e => e.apply t) tx

/-- The calls made between the world `w` and the later world `w1`. -/
def callsSince (w w1 : World σ) : List (Event σ) :=
  w1.log.drop w.log.length

/-- Every call of `evs`, made in turn from the transaction `tx`, leaves `g` of
the transaction (its abort flag, or the transaction itself) as it finds it. -/
def CallsKeep {β : Type} (g : Transaction σ → β) : List (Event σ) → Transaction σ → Prop
  | [], _ => True
  | e :: es, tx => g (e.apply tx) = g tx ∧ CallsKeep g es (e.apply tx)

/-- An operation that takes the world `w` to `w1` has changed the transaction by
its capability calls and by nothing else: the log of `w1` is the log of `w`
followed by the calls made, the transaction of `w1` is the transaction of `w`
after these calls, and if every call made left `g` unchanged, `g` is unchanged. -/
def ByCallsAlone {β : Type} (g : Transaction σ → β) (w w1 : World σ) : Prop :=
  w1.log = w.log ++ callsSince w w1
    ∧ w1.tx = applyCalls (callsSince w w1) w.tx
    ∧ (CallsKeep g (callsSince w w1) w.tx → g w1.tx = g w.tx)

/-- `SecRule.Match` with its pointer receiver made explicit: the rule as the call
leaves it, and the result.  `Match` and the methods it calls read the fields of
`r` and assign to none. -/
def SecRule.MatchRecv (r : SecRule σ) (w : World σ) : SecRule σ × (Bool × World σ) :=
  (r, r.Match w)

/-- `SecRule.Do` with its pointer receiver made explicit: `Do` reads `r.SubRules`
and `r.Actions`, calls `Match` on `r` and on the sub-rules, and assigns to no
field. -/
def SecRule.DoRecv (r : SecRule σ) (w : World σ) :
    SecRule σ × Except (World σ) (World σ) :=
  ((r.MatchRecv w).1, r.Do w)

/-- `SecRuleSet.ExecuteDefaultActions` with its pointer receiver made explicit. -/
def SecRuleSet.ExecuteDefaultActionsRecv (rs : SecRuleSet σ) (w : World σ) :
    SecRuleSet σ × Except (World σ) (World σ) :=
  (rs, rs.ExecuteDefaultActions w)

/-- `SecRuleSet.Process` with its pointer receiver made explicit.  The bucket
holds rule pointers: the rule at `offset` is, after the call, the rule as its `Do`
leaves it. -/
def SecRuleSet.ProcessRecv (rs : SecRuleSet σ) (w : World σ) (phase : Int) (offset : Int) :
    SecRuleSet σ × Except (World σ) (World σ) :=
  match rs.Phases with
  | none => (rs, .ok w)
  | some m =>
    let p := m phase
    if (p.length : Int) > offset then
      match sliceIndex p offset with
      | some rule =>
        ({ rs with Phases := some (fun q =>
            if q = phase then p.set offset.toNat (rule.DoRecv w).1 else m q) },
          (rule.DoRecv w).2)
      | none => (rs, .error w)
    else (rs, .ok w)

/-- A transaction on which `exRule` does not match. -/
def exFine : World (List String) :=
  ⟨⟨false, ["good", "fine"]⟩, []⟩

/-- A rule set whose request-headers bucket is `[exQuiet, exRule]`. -/
def exMixedSet : SecRuleSet (List String) :=
  NewSecRuleSet.AddRules [exQuiet, exRule]

/-- Whether the calls keep `g` can be computed when `g` has decidable equality. -/
def CallsKeep.decide {β : Type} [DecidableEq β] (g : Transaction σ → β) :
    (evs : List (Event σ)) → (tx : Transaction σ) → Decidable (CallsKeep g evs tx)
  | [], _ => isTrue trivial
  | e :: es, tx =>
    match decEq (g (e.apply tx)) (g tx), CallsKeep.decide g es (e.apply tx) with
    | isTrue h1, isTrue h2 => isTrue ⟨h1, h2⟩
    | isFalse h1, _ => isFalse (fun h => h1 h.1)
    | _, isFalse h2 => isFalse (fun h => h2 h.2)

instance {β : Type} [DecidableEq β] (g : Transaction σ → β) (evs : List (Event σ))
    (tx : Transaction σ) : Decidable (CallsKeep g evs tx) :=
  CallsKeep.decide g evs tx

/-! ## Action dispatch -/

theorem foldl_callDo (as : List (Action σ)) (w : World σ) :
    as.foldl (fun w2 action => callDo action w2) w
      = ⟨doAll as w.tx, w.log ++ as.map Event.actionDo⟩ := by
  induction as generalizing w with
  | nil => simp [doAll]
  | cons a as ih =>
    rw [List.foldl_cons, ih]
    simp [callDo, doAll]

theorem sliceIndex_of_lt {α : Type} (p : List α) (i : Int) (h0 : 0 ≤ i) (h1 : i < p.length) :
    sliceIndex p i = p[i.toNat]? ∧ ∃ x, p[i.toNat]? = some x := by
  have hlt : i.toNat < p.length := by omega
  refine ⟨by simp [sliceIndex, h0], ⟨p[i.toNat], List.getElem?_eq_getElem hlt⟩⟩

theorem sliceIndex_eq_none {α : Type} (p : List α) (i : Int) (h : i < 0 ∨ (p.length : Int) ≤ i) :
    sliceIndex p i = none := by
  unfold sliceIndex
  split
  · have : p.length ≤ i.toNat := by omega
    simpa using this
  · rfl

theorem groupActions_buckets (as : List (Action σ)) (m : List (List (Action σ)))
    (h : ∀ a ∈ as, 0 ≤ a.ActionGroup ∧ a.ActionGroup < m.length) :
    ∃ m1, groupActions as m = some m1 ∧
      ∀ i : Nat, m1[i]? = (m[i]?).map
        (fun b => b ++ as.filter (fun a => a.ActionGroup = (i : Int))) := by
  induction as generalizing m with
  | nil => exact ⟨m, rfl, fun i => by simp⟩
  | cons a as ih =>
    obtain ⟨h0, h1⟩ := h a (List.mem_cons_self _ _)
    obtain ⟨hs, x, hx⟩ := sliceIndex_of_lt m a.ActionGroup h0 h1
    have hlt : a.ActionGroup.toNat < m.length := by omega
    have hlen : (m.set a.ActionGroup.toNat (x ++ [a])).length = m.length := by simp
    obtain ⟨m1, hm1, hb⟩ := ih (m.set a.ActionGroup.toNat (x ++ [a]))
      (fun b hb => by rw [hlen]; exact h b (List.mem_cons_of_mem _ hb))
    refine ⟨m1, ?_, ?_⟩
    · simp only [groupActions, sliceAppendAt, hs, hx, hm1]
    · intro i
      rw [hb i, List.getElem?_set]
      by_cases hi : a.ActionGroup.toNat = i
      · have hg : a.ActionGroup = (i : Int) := by omega
        have hx1 : m[i]? = some x := hi ▸ hx
        have hlt1 : i < m.length := hi ▸ hlt
        simp [hi, hlt1, hx1, List.filter_cons, hg]
      · have hg : ¬ a.ActionGroup = (i : Int) := by omega
        simp [hi, List.filter_cons, hg]

theorem groupActions_none (as : List (Action σ)) (m : List (List (Action σ)))
    (h : ∃ a ∈ as, ¬ (0 ≤ a.ActionGroup ∧ a.ActionGroup < m.length)) :
    groupActions as m = none := by
  induction as generalizing m with
  | nil => simp at h
  | cons a as ih =>
    by_cases ha : 0 ≤ a.ActionGroup ∧ a.ActionGroup < m.length
    · obtain ⟨hs, x, hx⟩ := sliceIndex_of_lt m a.ActionGroup ha.1 ha.2
      simp only [groupActions, sliceAppendAt, hs, hx]
      apply ih
      obtain ⟨b, hb, hbad⟩ := h
      rcases List.mem_cons.1 hb with rfl | hb
      · exact absurd ha hbad
      · exact ⟨b, hb, by simpa using hbad⟩
    · have : sliceIndex m a.ActionGroup = none := sliceIndex_eq_none _ _ (by omega)
      simp [groupActions, sliceAppendAt, this]

/-- With valid groups `ActionsExecute` returns, and it has called `Do` on the
stable partition of the list, each call on the transaction left by the one before. -/
theorem ActionsExecute_ok (w : World σ) (as : List (Action σ)) (h : ValidGroups as) :
    ActionsExecute w as
      = .ok ⟨doAll (dispatchOrder as) w.tx, w.log ++ (dispatchOrder as).map Event.actionDo⟩ := by
  obtain ⟨m1, hm1, hb⟩ := groupActions_buckets as (List.replicate ActionGroupCount.toNat [])
    (fun a ha => by simpa [ActionGroupCount] using h a ha)
  have hm : m1 = [as.filter (fun a => a.ActionGroup = ActionGroupMetaData),
      as.filter (fun a => a.ActionGroup = ActionGroupData),
      as.filter (fun a => a.ActionGroup = ActionGroupNonDisruptive),
      as.filter (fun a => a.ActionGroup = ActionGroupDisruptive),
      as.filter (fun a => a.ActionGroup = ActionGroupFlow)] := by
    apply List.ext_getElem?
    intro i
    rw [hb i]
    rcases i with _ | _ | _ | _ | _ | i <;>
      simp [ActionGroupCount, ActionGroupMetaData, ActionGroupData, ActionGroupNonDisruptive,
        ActionGroupDisruptive, ActionGroupFlow, List.getElem?_replicate]
  simp only [ActionsExecute, hm1, hm, runBuckets, List.foldl_cons, List.foldl_nil, foldl_callDo,
    dispatchOrder, doAll, List.foldl_append, List.map_append, List.append_assoc]

/-- An action with a group outside the five makes `ActionsExecute` panic in its
first loop, before any `Do`. -/
theorem ActionsExecute_panic (w : World σ) (as : List (Action σ)) (h : ¬ ValidGroups as) :
    ActionsExecute w as = .error w := by
  have : groupActions as (List.replicate ActionGroupCount.toNat []) = none := by
    apply groupActions_none
    simp only [ValidGroups, not_forall] at h
    obtain ⟨a, ha, hbad⟩ := h
    exact ⟨a, ha, by simpa [ActionGroupCount] using hbad⟩
  simp [ActionsExecute, this]

/-! ## Invariants of the matching phase -/

theorem foldl_invariant {α β : Type} (I : β → Prop) (f : β → α → β) (l : List α)
    (h : ∀ a ∈ l, ∀ b, I b → I (f b a)) (b : β) (hb : I b) : I (l.foldl f b) := by
  induction l generalizing b with
  | nil => exact hb
  | cons a l ih =>
    exact ih (fun x hx => h x (List.mem_cons_of_mem _ hx)) _ (h a (List.mem_cons_self _ _) b hb)

theorem TransformString_invariant (I : World σ → Prop) (r : SecRule σ)
    (hT : ∀ f ∈ r.Trans, ∀ w s, I w → I (callTrans f w s).2)
    (w : World σ) (s : String) (hw : I w) : I (r.TransformString w s).2 :=
  foldl_invariant (fun acc : String × World σ => I acc.2) _ r.Trans
    (fun f hf acc h => hT f hf acc.2 acc.1 h) (s, w) hw

theorem TransformVariable_invariant (I : World σ → Prop) (r : SecRule σ)
    (hT : ∀ f ∈ r.Trans, ∀ w s, I w → I (callTrans f w s).2)
    (vr : Variable σ) (hF : ∀ w, I w → I (callFetch vr w).2)
    (w : World σ) (hw : I w) : I (r.TransformVariable w vr).2 := by
  unfold SecRule.TransformVariable
  refine foldl_invariant (fun acc : List String × World σ => I acc.2) _ _ ?_ ([], _) (hF w hw)
  exact fun v _ acc h => TransformString_invariant I r hT acc.2 v h

theorem FetchAll_invariant (I : World σ → Prop) (r : SecRule σ)
    (hF : ∀ v ∈ r.Variables, ∀ w, I w → I (callFetch v w).2)
    (hT : ∀ f ∈ r.Trans, ∀ w s, I w → I (callTrans f w s).2)
    (w : World σ) (hw : I w) : I (r.FetchAllTransformedVariables w).2 := by
  unfold SecRule.FetchAllTransformedVariables
  refine foldl_invariant (fun acc : List String × World σ => I acc.2) _ r.Variables ?_ ([], w) hw
  exact fun v hv acc h => TransformVariable_invariant I r hT v (hF v hv) acc.2 h

theorem matchLoop_invariant (I : World σ → Prop) (r : SecRule σ)
    (hM : ∀ w v, I w → I (callMatch r.Operator w v).2)
    (vs : List String) (w : World σ) (hw : I w) : I (r.matchLoop vs w).2 := by
  induction vs generalizing w with
  | nil => exact hw
  | cons v vs ih =>
    unfold SecRule.matchLoop
    split
    · exact hw
    · split
      · exact hM w v hw
      · exact ih _ (hM w v hw)

theorem Match_invariant (I : World σ → Prop) (r : SecRule σ)
    (hF : ∀ v ∈ r.Variables, ∀ w, I w → I (callFetch v w).2)
    (hT : ∀ f ∈ r.Trans, ∀ w s, I w → I (callTrans f w s).2)
    (hM : ∀ w v, I w → I (callMatch r.Operator w v).2)
    (w : World σ) (hw : I w) : I (r.Match w).2 :=
  matchLoop_invariant I r hM _ _ (FetchAll_invariant I r hF hT w hw)

theorem subRulesMatch_invariant (I : World σ → Prop) (subs : List (SecRule σ))
    (h : ∀ sub ∈ subs, ∀ w, I w → I (sub.Match w).2)
    (w : World σ) (hw : I w) : I (SecRule.subRulesMatch subs w).2 := by
  induction subs generalizing w with
  | nil => exact hw
  | cons sub rest ih =>
    unfold SecRule.subRulesMatch
    split
    · exact h sub (List.mem_cons_self _ _) w hw
    · exact ih (fun s hs => h s (List.mem_cons_of_mem _ hs)) _
        (h sub (List.mem_cons_self _ _) w hw)

/-- Matching calls no action. -/
theorem Match_actionCalls (r : SecRule σ) (w : World σ) :
    actionCalls (r.Match w).2.log = actionCalls w.log :=
  Match_invariant (fun w1 => actionCalls w1.log = actionCalls w.log) r
    (fun v _ w1 h => by simpa [callFetch, actionCalls, List.filterMap_append] using h)
    (fun f _ w1 s h => by simpa [callTrans, actionCalls, List.filterMap_append] using h)
    (fun w1 v h => by simpa [callMatch, actionCalls, List.filterMap_append] using h)
    w rfl

theorem subRulesMatch_actionCalls (subs : List (SecRule σ)) (w : World σ) :
    actionCalls (SecRule.subRulesMatch subs w).2.log = actionCalls w.log :=
  subRulesMatch_invariant (fun w1 => actionCalls w1.log = actionCalls w.log) subs
    (fun sub _ w1 h => (Match_actionCalls sub w1).trans h) w rfl

theorem actionCalls_append_map (l : List (Event σ)) (as : List (Action σ)) :
    actionCalls (l ++ as.map Event.actionDo) = actionCalls l ++ as := by
  induction as generalizing l with
  | nil => simp
  | cons a as ih =>
    have : l ++ List.map Event.actionDo (a :: as)
        = (l ++ [Event.actionDo a]) ++ List.map Event.actionDo as := by simp
    rw [this, ih]
    simp [actionCalls, List.filterMap_append]

theorem doAll_append (as bs : List (Action σ)) (tx : Transaction σ) :
    doAll (as ++ bs) tx = doAll bs (doAll as tx) := by
  simp [doAll, List.foldl_append]

/-! ## `SecRule.Do` -/

theorem subRulesExecute_ok (subs : List (SecRule σ)) (w : World σ)
    (h : ∀ sub ∈ subs, ValidGroups sub.Actions) :
    SecRule.subRulesExecute subs w
      = .ok ⟨doAll (subs.flatMap (fun sub => dispatchOrder sub.Actions)) w.tx,
          w.log ++ (subs.flatMap (fun sub => dispatchOrder sub.Actions)).map Event.actionDo⟩ := by
  induction subs generalizing w with
  | nil => simp [SecRule.subRulesExecute, doAll]
  | cons sub rest ih =>
    rw [SecRule.subRulesExecute, ActionsExecute_ok w sub.Actions (h sub (List.mem_cons_self _ _))]
    simp only []
    rw [ih _ (fun s hs => h s (List.mem_cons_of_mem _ hs))]
    simp [doAll_append, List.flatMap_cons]

theorem chainFold_false (subs : List (SecRule σ)) (w : World σ) :
    (subs.foldl (fun acc sub => (acc.1 && (sub.Match acc.2).1, (sub.Match acc.2).2))
      (false, w)).1 = false := by
  induction subs generalizing w with
  | nil => rfl
  | cons sub rest ih => simpa using ih _

/-- The early-exit loop over the sub-rules computes the conjunction of the
sub-rule verdicts, and when that is `true` it ends in the same world. -/
theorem subRulesMatch_fold (subs : List (SecRule σ)) (w : World σ) :
    (SecRule.subRulesMatch subs w).1
        = (subs.foldl (fun acc sub => (acc.1 && (sub.Match acc.2).1, (sub.Match acc.2).2))
            (true, w)).1
      ∧ ((SecRule.subRulesMatch subs w).1 = true →
          (SecRule.subRulesMatch subs w).2
            = (subs.foldl (fun acc sub => (acc.1 && (sub.Match acc.2).1, (sub.Match acc.2).2))
                (true, w)).2) := by
  induction subs generalizing w with
  | nil => simp [SecRule.subRulesMatch]
  | cons sub rest ih =>
    unfold SecRule.subRulesMatch
    cases hm : (sub.Match w).1
    · simp [hm, chainFold_false]
    · simpa [hm] using ih (sub.Match w).2

theorem chainVerdict_eq (r : SecRule σ) (w : World σ) :
    (chainVerdict r w).1 = ((r.Match w).1 && (SecRule.subRulesMatch r.SubRules (r.Match w).2).1)
      ∧ ((chainVerdict r w).1 = true →
          (chainVerdict r w).2 = (SecRule.subRulesMatch r.SubRules (r.Match w).2).2) := by
  unfold chainVerdict
  cases hm : (r.Match w).1
  · have h : r.Match w = (false, (r.Match w).2) := by rw [← hm]
    rw [h]
    simp [chainFold_false]
  · have h : r.Match w = (true, (r.Match w).2) := by rw [← hm]
    rw [h]
    have := subRulesMatch_fold r.SubRules (r.Match w).2
    simp only [Bool.true_and]
    exact ⟨this.1.symm, fun hv => (this.2 (this.1.trans hv)).symm⟩

/-- The conjunction of the verdicts is true exactly when the primary rule matches
and every sub-rule matches on the world the matches before it left. -/
theorem chainFold_iff (subs : List (SecRule σ)) (b : Bool) (w : World σ) :
    (subs.foldl (fun acc sub => (acc.1 && (sub.Match acc.2).1, (sub.Match acc.2).2))
        (b, w)).1 = true
      ↔ b = true ∧ ∀ pre sub post, subs = pre ++ sub :: post →
          (sub.Match (afterMatches pre w)).1 = true := by
  induction subs generalizing b w with
  | nil => simp
  | cons s subs ih =>
    rw [List.foldl_cons, ih]
    constructor
    · rintro ⟨hb, hrest⟩
      simp only [Bool.and_eq_true] at hb
      refine ⟨hb.1, fun pre sub post hsplit => ?_⟩
      cases pre with
      | nil =>
        simp only [List.nil_append, List.cons.injEq] at hsplit
        obtain ⟨rfl, -⟩ := hsplit
        exact hb.2
      | cons p pre =>
        simp only [List.cons_append, List.cons.injEq] at hsplit
        obtain ⟨rfl, hsplit⟩ := hsplit
        exact hrest pre sub post hsplit
    · rintro ⟨hb, hall⟩
      have h1 : (s.Match w).1 = true := hall [] s subs rfl
      refine ⟨by simp [hb, h1], fun pre sub post hsplit => ?_⟩
      exact hall (s :: pre) sub post (by simp [hsplit])

/-- A rule that does not match as a chain returns without calling any action. -/
theorem Do_unmatched (r : SecRule σ) (w : World σ) (h : (chainVerdict r w).1 = false) :
    ∃ w1, r.Do w = .ok w1 ∧ actionCalls w1.log = actionCalls w.log := by
  rw [(chainVerdict_eq r w).1] at h
  unfold SecRule.Do
  cases hm : (r.Match w).1
  · exact ⟨_, by simp, Match_actionCalls r w⟩
  · rw [hm, Bool.true_and] at h
    refine ⟨(SecRule.subRulesMatch r.SubRules (r.Match w).2).2, by simp [h], ?_⟩
    rw [subRulesMatch_actionCalls, Match_actionCalls]

/-- A rule that matches as a chain dispatches its own actions, then those of
its sub-rules, from the world the matching left. -/
theorem Do_matched (r : SecRule σ) (w : World σ) (h : (chainVerdict r w).1 = true) :
    r.Do w = (match ActionsExecute (chainVerdict r w).2 r.Actions with
      | .ok w1 => SecRule.subRulesExecute r.SubRules w1
      | .error w1 => .error w1) := by
  have hw := (chainVerdict_eq r w).2 h
  rw [(chainVerdict_eq r w).1, Bool.and_eq_true] at h
  unfold SecRule.Do
  rw [hw]
  simp [h.1, h.2]

theorem Do_valid (r : SecRule σ) (w : World σ) (hv : ChainValid r) :
    ∃ w1, r.Do w = .ok w1 ∧ actionCalls w1.log
      = actionCalls w.log ++ (if (chainVerdict r w).1 then chainActions r else []) := by
  cases h : (chainVerdict r w).1
  · simpa using Do_unmatched r w h
  · rw [Do_matched r w h, ActionsExecute_ok _ _ hv.1]
    simp only []
    rw [subRulesExecute_ok _ _ hv.2]
    refine ⟨_, rfl, ?_⟩
    have hc : actionCalls (chainVerdict r w).2.log = actionCalls w.log := by
      rw [(chainVerdict_eq r w).2 h, subRulesMatch_actionCalls, Match_actionCalls]
    show actionCalls (((chainVerdict r w).2.log ++ (dispatchOrder r.Actions).map Event.actionDo)
      ++ (r.SubRules.flatMap (fun sub => dispatchOrder sub.Actions)).map Event.actionDo) = _
    rw [actionCalls_append_map, actionCalls_append_map, hc]
    simp [chainActions]

theorem exRule_valid : ValidGroups exRule.Actions := by
  intro a ha
  simp only [exRule, SecRule.Actions, List.mem_cons, List.mem_singleton, List.not_mem_nil,
    or_false] at ha
  rcases ha with rfl | rfl | rfl <;> decide

theorem exChain_valid : ChainValid exChain := by
  refine ⟨?_, ?_⟩
  · intro a ha
    simp only [exChain, SecRule.Actions, List.mem_cons, List.mem_singleton, List.not_mem_nil,
      or_false] at ha
    rcases ha with rfl | rfl <;> decide
  · intro sub hs a ha
    simp only [exChain, SecRule.SubRules, List.mem_singleton] at hs
    subst hs
    simp only [exSub, SecRule.Actions, List.mem_singleton] at ha
    subst ha
    decide

/-! ## The loop of `Match` -/

theorem operatorCalls_append_map (o : Operator σ) (l : List (Event σ)) (vs : List String) :
    operatorCalls (l ++ vs.map (Event.operatorMatch o)) = operatorCalls l ++ vs := by
  induction vs generalizing l with
  | nil => simp
  | cons v vs ih =>
    have : l ++ List.map (Event.operatorMatch o) (v :: vs)
        = (l ++ [Event.operatorMatch o v]) ++ List.map (Event.operatorMatch o) vs := by simp
    rw [this, ih]
    simp [operatorCalls, List.filterMap_append]

/-- Fetching and transforming calls no operator. -/
theorem FetchAll_operatorCalls (r : SecRule σ) (w : World σ) :
    operatorCalls (r.FetchAllTransformedVariables w).2.log = operatorCalls w.log :=
  FetchAll_invariant (fun w1 => operatorCalls w1.log = operatorCalls w.log) r
    (fun v _ w1 h => by simpa [callFetch, operatorCalls, List.filterMap_append] using h)
    (fun f _ w1 s h => by simpa [callTrans, operatorCalls, List.filterMap_append] using h)
    w rfl

/-- A property of the transaction that every `Fetch` and every `Trans` of the
rule keeps, holds after `FetchAllTransformedVariables`. -/
theorem FetchAll_keeps (P : Transaction σ → Prop) (r : SecRule σ)
    (hF : ∀ v ∈ r.Variables, ∀ t, P t → P (v.Fetch t).2)
    (hT : ∀ f ∈ r.Trans, ∀ t s, P t → P (f.Trans t s).2)
    (w : World σ) (hw : P w.tx) : P (r.FetchAllTransformedVariables w).2.tx :=
  FetchAll_invariant (fun w1 => P w1.tx) r
    (fun v hv w1 h => hF v hv w1.tx h) (fun f hf w1 s h => hT f hf w1.tx s h) w hw

theorem matchLoop_aborted (r : SecRule σ) (vs : List String) (w : World σ)
    (h : w.tx.Abort = true) : r.matchLoop vs w = (false, w) := by
  cases vs with
  | nil => rfl
  | cons v vs => simp [SecRule.matchLoop, h]

theorem afterTests_keeps (P : Transaction σ → Prop) (o : Operator σ)
    (h : ∀ t v, P t → P (o.Match t v).2) (vs : List String) (tx : Transaction σ)
    (htx : P tx) : P (afterTests o vs tx) :=
  foldl_invariant P _ vs (fun v _ t ht => h t v ht) tx htx

/-- An operator that never sets the abort flag keeps it clear at every test. -/
theorem abortClear_of_operator (r : SecRule σ)
    (hM : ∀ t v, t.Abort = false → (r.Operator.Match t v).2.Abort = false)
    (vals : List String) (tx : Transaction σ) (htx : tx.Abort = false) :
    AbortClearAtTests r vals tx :=
  fun p1 _ _ _ _ => afterTests_keeps (fun t => t.Abort = false) r.Operator hM p1 tx htx

theorem matchLoop_true_iff (r : SecRule σ) (vs : List String) (w : World σ)
    (H : AbortClearAtTests r vs w.tx) :
    (r.matchLoop vs w).1 = true ↔ ∃ pre v post, vs = pre ++ v :: post
      ∧ (r.Not != (r.Operator.Match (afterTests r.Operator pre w.tx) v).1) = true := by
  induction vs generalizing w with
  | nil => simp [SecRule.matchLoop]
  | cons v vs ih =>
    have hw : w.tx.Abort = false :=
      H [] v vs rfl (fun q1 u q2 hq => by simp at hq)
    cases ht : (r.Not != (r.Operator.Match w.tx v).1)
    · have hstep : r.matchLoop (v :: vs) w = r.matchLoop vs (callMatch r.Operator w v).2 := by
        simp [SecRule.matchLoop, hw, callMatch, ht]
      have H1 : AbortClearAtTests r vs (callMatch r.Operator w v).2.tx := by
        intro p1 x p2 hp hq
        have := H (v :: p1) x p2 (by simp [hp]) (fun q1 u q2 hq1 => by
          cases q1 with
          | nil =>
            simp only [List.nil_append, List.cons.injEq] at hq1
            obtain ⟨rfl, -⟩ := hq1
            simpa [afterTests] using ht
          | cons y q1 =>
            simp only [List.cons_append, List.cons.injEq] at hq1
            obtain ⟨rfl, hq1⟩ := hq1
            simpa [afterTests, callMatch] using hq q1 u q2 hq1)
        simpa [afterTests, callMatch] using this
      rw [hstep, ih _ H1]
      constructor
      · rintro ⟨pre, x, post, hvs, hx⟩
        exact ⟨v :: pre, x, post, by simp [hvs], by simpa [afterTests, callMatch] using hx⟩
      · rintro ⟨pre, x, post, hvs, hx⟩
        cases pre with
        | nil =>
          simp only [List.nil_append, List.cons.injEq] at hvs
          obtain ⟨rfl, -⟩ := hvs
          simp only [afterTests, List.foldl_nil] at hx
          rw [ht] at hx
          exact absurd hx (by simp)
        | cons p pre =>
          simp only [List.cons_append, List.cons.injEq] at hvs
          obtain ⟨rfl, hvs⟩ := hvs
          exact ⟨pre, x, post, hvs, by simpa [afterTests, callMatch] using hx⟩
    · have hstep : (r.matchLoop (v :: vs) w).1 = true := by
        simp [SecRule.matchLoop, hw, callMatch, ht]
      rw [hstep]
      simp only [true_iff]
      exact ⟨[], v, vs, rfl, by simpa [afterTests] using ht⟩

theorem matchLoop_stops (r : SecRule σ) (pre post : List String) (w : World σ)
    (htested : ∀ p1 v p2, pre = p1 ++ v :: p2 →
      (afterTests r.Operator p1 w.tx).Abort = false
        ∧ (r.Not != (r.Operator.Match (afterTests r.Operator p1 w.tx) v).1) = false)
    (habort : (afterTests r.Operator pre w.tx).Abort = true) :
    r.matchLoop (pre ++ post) w
      = (false, ⟨afterTests r.Operator pre w.tx, w.log ++ pre.map (Event.operatorMatch r.Operator)⟩) := by
  induction pre generalizing w with
  | nil =>
    simp only [afterTests, List.foldl_nil] at habort
    simp [matchLoop_aborted r post w habort, afterTests]
  | cons v pre ih =>
    obtain ⟨h0, h1⟩ := htested [] v pre rfl
    simp only [afterTests, List.foldl_nil] at h0 h1
    have hstep : r.matchLoop (v :: pre ++ post) w
        = r.matchLoop (pre ++ post) (callMatch r.Operator w v).2 := by
      simp [SecRule.matchLoop, h0, callMatch, h1]
    rw [hstep, ih (callMatch r.Operator w v).2
      (fun p1 x p2 hp => by
        simpa [afterTests, callMatch] using htested (v :: p1) x p2 (by simp [hp]))
      (by simpa [afterTests, callMatch] using habort)]
    simp [afterTests, callMatch]

/-! ## The rule set -/

theorem addRulesLoop_valid (rules : List (SecRule σ)) (phases : Int → List (SecRule σ))
    (h : ∀ p, ∀ x ∈ phases p, x.Phase = p ∧ PhaseBegin < p ∧ p < PhaseEnd) :
    ∀ p, ∀ x ∈ addRulesLoop rules phases p, x.Phase = p ∧ PhaseBegin < p ∧ p < PhaseEnd := by
  induction rules generalizing phases with
  | nil => exact h
  | cons rule rules ih =>
    unfold addRulesLoop
    split
    · exact ih phases h
    · rename_i hok
      apply ih
      intro p x hx
      by_cases hp : p = rule.Phase
      · simp only [hp, if_true, List.mem_append, List.mem_singleton] at hx
        rcases hx with hx | rfl
        · exact hp ▸ h _ x hx
        · refine ⟨hp.symm, ?_, ?_⟩ <;> omega
      · simp only [hp, if_false] at hx
        exact h p x hx

theorem AddRules_valid (rs : SecRuleSet σ) (rules : List (SecRule σ)) (h : PhasesValid rs) :
    PhasesValid (rs.AddRules rules) := by
  intro p x hx
  cases hP : rs.Phases with
  | none =>
    simp only [SecRuleSet.AddRules, SecRuleSet.bucket, hP] at hx
    exact addRulesLoop_valid rules (fun _ => []) (by simp) p x hx
  | some m =>
    simp only [SecRuleSet.AddRules, SecRuleSet.bucket, hP] at hx
    refine addRulesLoop_valid rules m (fun q y hy => h q y ?_) p x hx
    simpa [SecRuleSet.bucket, hP] using hy

theorem buildRuleSet_valid (calls : List (List (SecRule σ))) :
    PhasesValid (buildRuleSet calls) := by
  unfold buildRuleSet
  refine foldl_invariant PhasesValid _ calls ?_ NewSecRuleSet ?_
  · exact fun rules _ rs h => AddRules_valid rs rules h
  · intro p x hx
    simp [SecRuleSet.bucket, NewSecRuleSet] at hx

/-- What `Process` does, by the position of `offset` in the rule sequence of the
phase. -/
theorem Process_cases (rs : SecRuleSet σ) (w : World σ) (phase offset : Int) :
    ((rs.bucket phase).length ≤ offset → rs.Process w phase offset = .ok w)
      ∧ (rs.Phases = none → rs.Process w phase offset = .ok w)
      ∧ (rs.Phases ≠ none → offset < 0 → rs.Process w phase offset = .error w)
      ∧ (0 ≤ offset → offset < (rs.bucket phase).length →
          ∃ rule, sliceIndex (rs.bucket phase) offset = some rule ∧ rule ∈ rs.bucket phase
            ∧ rs.Process w phase offset = rule.Do w) := by
  rcases rs with ⟨_ | m, D⟩
  · refine ⟨fun _ => rfl, fun _ => rfl, fun h => absurd rfl h, fun h0 h1 => ?_⟩
    simp only [SecRuleSet.bucket, List.length_nil] at h1
    omega
  · simp only [SecRuleSet.bucket]
    refine ⟨fun h => ?_, fun h => by simp at h, fun _ h => ?_, fun h0 h1 => ?_⟩
    · have : ¬ ((m phase).length : Int) > offset := by omega
      simp [SecRuleSet.Process, this]
    · have h1 : ((m phase).length : Int) > offset := by omega
      simp [SecRuleSet.Process, h1, sliceIndex_eq_none _ _ (Or.inl h)]
    · obtain ⟨hs, x, hx⟩ := sliceIndex_of_lt (m phase) offset h0 h1
      refine ⟨x, hs.trans hx, List.getElem?_mem hx, ?_⟩
      have h2 : ((m phase).length : Int) > offset := h1
      simp [SecRuleSet.Process, h2, hs, hx]

/-! ## The claims -/

/-- C1: for a rule with an empty `SubRules` list, `Do` is `ActionsExecute` on the
rule's own actions (from the world the match left) when `Match` returns true, and
returns at once when `Match` returns false; the match itself calls no action; so,
with actions of valid groups, the actions `Do` calls are exactly the rule's
actions, each once, in dispatch order, when the rule matches, and none when it
does not. -/
theorem Do_without_subrules (r : SecRule σ) (w : World σ) (h : r.SubRules = []) :
    r.Do w = (if (r.Match w).1 then ActionsExecute (r.Match w).2 r.Actions
        else .ok (r.Match w).2)
      ∧ actionCalls (r.Match w).2.log = actionCalls w.log
      ∧ (ValidGroups r.Actions → ∃ w1, r.Do w = .ok w1 ∧ actionCalls w1.log
          = actionCalls w.log ++ (if (r.Match w).1 then dispatchOrder r.Actions else [])) := by
  have hc : chainVerdict r w = r.Match w := by simp [chainVerdict, h]
  refine ⟨?_, Match_actionCalls r w, ?_⟩
  · unfold SecRule.Do
    rw [h]
    cases hm : (r.Match w).1
    · simp
    · cases hx : ActionsExecute (r.Match w).2 r.Actions <;>
        simp [SecRule.subRulesMatch, SecRule.subRulesExecute, hx]
  · intro hv
    have := Do_valid r w ⟨hv, by simp [h]⟩
    simpa [hc, chainActions, h] using this

theorem Do_without_subrules_witness :
    exRule.SubRules = [] ∧ (exRule.Match exWorld).1 = true
      ∧ ∃ w1, exRule.Do exWorld = .ok w1
          ∧ actionCalls w1.log = [exMetaDataC, exDisruptiveB, exFlowA] := by
  refine ⟨rfl, by decide, ?_⟩
  obtain ⟨w1, h1, h2⟩ := (Do_without_subrules exRule exWorld rfl).2.2 exRule_valid
  refine ⟨w1, h1, ?_⟩
  rw [h2, if_pos (by decide)]
  rfl

/-- C2: for a rule with sub-rules, the chain verdict is true exactly when `Match`
is true for the primary rule and for every sub-rule (each matched with its own
variables, transforms, operator and `Not`, on the transaction as the matches
before it left it).  When it is false, `Do` returns having called no action of
any rule; when it is true, `Do` dispatches the primary rule's actions and then
the sub-rules' actions; so, with actions of valid groups, the actions `Do` calls
are the chain's actions exactly when the whole chain matches, and none otherwise. -/
theorem Do_chain (r : SecRule σ) (w : World σ) (_hne : r.SubRules ≠ []) :
    ((chainVerdict r w).1 = true ↔ (r.Match w).1 = true
        ∧ ∀ pre sub post, r.SubRules = pre ++ sub :: post →
            (sub.Match (afterMatches pre (r.Match w).2)).1 = true)
      ∧ ((chainVerdict r w).1 = false →
        ∃ w1, r.Do w = .ok w1 ∧ actionCalls w1.log = actionCalls w.log)
      ∧ ((chainVerdict r w).1 = true →
        r.Do w = (match ActionsExecute (chainVerdict r w).2 r.Actions with
          | .ok w1 => SecRule.subRulesExecute r.SubRules w1
          | .error w1 => .error w1))
      ∧ (ChainValid r → ∃ w1, r.Do w = .ok w1 ∧ actionCalls w1.log
          = actionCalls w.log ++ (if (chainVerdict r w).1 then chainActions r else [])) :=
  ⟨chainFold_iff r.SubRules (r.Match w).1 (r.Match w).2,
    Do_unmatched r w, Do_matched r w, Do_valid r w⟩

theorem Do_chain_witness :
    exChain.SubRules ≠ [] ∧ (exChain.Match exWorld).1 = true
      ∧ (exSub.Match (exChain.Match exWorld).2).1 = true
      ∧ ∃ w1, exChain.Do exWorld = .ok w1
          ∧ actionCalls w1.log = [exDisruptiveB, exFlowA, exMetaDataC] := by
  refine ⟨List.cons_ne_nil _ _, by decide, by decide, ?_⟩
  obtain ⟨w1, h1, h2⟩ := (Do_chain exChain exWorld (List.cons_ne_nil _ _)).2.2.2 exChain_valid
  refine ⟨w1, h1, ?_⟩
  rw [h2, if_pos (by decide)]
  rfl

/-- C3: on a list whose actions all report one of the five groups,
`ActionsExecute` returns and the sequence of its `Action.Do` calls is the stable
partition of the list by group (MetaData, Data, NonDisruptive, Disruptive, Flow,
each group in list order), every `Do` acting on the transaction left by the call
before; on `[FlowA, DisruptiveB, MetaDataC]` that order is
`[MetaDataC, DisruptiveB, FlowA]`. -/
theorem ActionsExecute_stable_partition (w : World σ) (as : List (Action σ))
    (h : ValidGroups as) :
    (∃ w1, ActionsExecute w as = .ok w1
        ∧ w1.log = w.log ++ (dispatchOrder as).map Event.actionDo
        ∧ actionCalls w1.log = actionCalls w.log ++ dispatchOrder as
        ∧ w1.tx = doAll (dispatchOrder as) w.tx)
      ∧ ∀ FlowA DisruptiveB MetaDataC : Action σ,
          FlowA.ActionGroup = ActionGroupFlow →
          DisruptiveB.ActionGroup = ActionGroupDisruptive →
          MetaDataC.ActionGroup = ActionGroupMetaData →
          ValidGroups [FlowA, DisruptiveB, MetaDataC]
            ∧ dispatchOrder [FlowA, DisruptiveB, MetaDataC] = [MetaDataC, DisruptiveB, FlowA] := by
  refine ⟨⟨_, ActionsExecute_ok w as h, rfl, actionCalls_append_map _ _, rfl⟩, ?_⟩
  intro a b c ha hb hc
  refine ⟨?_, ?_⟩
  · intro x hx
    simp only [List.mem_cons, List.mem_singleton, List.not_mem_nil, or_false] at hx
    rcases hx with rfl | rfl | rfl <;> simp [ha, hb, hc, ActionGroupFlow, ActionGroupDisruptive,
      ActionGroupMetaData, ActionGroupCount]
  · simp [dispatchOrder, List.filter_cons, ha, hb, hc, ActionGroupFlow, ActionGroupDisruptive,
      ActionGroupMetaData, ActionGroupData, ActionGroupNonDisruptive]

theorem ActionsExecute_stable_partition_witness :
    ValidGroups [exFlowA, exDisruptiveB, exMetaDataC]
      ∧ ∃ w1, ActionsExecute exWorld [exFlowA, exDisruptiveB, exMetaDataC] = .ok w1
          ∧ actionCalls w1.log = [exMetaDataC, exDisruptiveB, exFlowA]
          ∧ w1.tx = ⟨true, ["good", "evil", "C"]⟩ := by
  obtain ⟨w1, h1, _, h3, h4⟩ :=
    (ActionsExecute_stable_partition exWorld [exFlowA, exDisruptiveB, exMetaDataC] exRule_valid).1
  exact ⟨exRule_valid, w1, h1, h3.trans rfl, h4.trans rfl⟩

theorem afterTests_readonly (o : Operator σ) (ho : ∀ t v, (o.Match t v).2 = t)
    (vs : List String) (tx : Transaction σ) : afterTests o vs tx = tx := by
  induction vs with
  | nil => rfl
  | cons v vs ih => simp [afterTests, ho]

/-- C4: when the abort flag is clear each time the loop comes to test a value
(as it is on a transaction whose flag is not set and is not set by any capability
during the call), `Match` returns true exactly when the sequence of transformed
values contains a value `v` with `Not XOR Operator.Match(t, v)` true, the operator
being asked on the transaction as the tests of the values before `v` left it (for
an operator that leaves the transaction alone: on the transaction after the
fetch).  With `Not = true` that is a value on which the operator returns false. -/
theorem Match_iff_some_value (r : SecRule σ) (w : World σ)
    (H : AbortClearAtTests r (r.FetchAllTransformedVariables w).1
      (r.FetchAllTransformedVariables w).2.tx) :
    ((r.Match w).1 = true ↔ ∃ pre v post,
        (r.FetchAllTransformedVariables w).1 = pre ++ v :: post
        ∧ (r.Not != (r.Operator.Match
            (afterTests r.Operator pre (r.FetchAllTransformedVariables w).2.tx) v).1) = true)
      ∧ (r.Not = true → ((r.Match w).1 = true ↔ ∃ pre v post,
        (r.FetchAllTransformedVariables w).1 = pre ++ v :: post
        ∧ (r.Operator.Match
            (afterTests r.Operator pre (r.FetchAllTransformedVariables w).2.tx) v).1 = false))
      ∧ ((∀ t v, (r.Operator.Match t v).2 = t) →
        ((r.Match w).1 = true ↔ ∃ v ∈ (r.FetchAllTransformedVariables w).1,
          (r.Not != (r.Operator.Match (r.FetchAllTransformedVariables w).2.tx v).1) = true)) := by
  have key := matchLoop_true_iff r (r.FetchAllTransformedVariables w).1
    (r.FetchAllTransformedVariables w).2 H
  refine ⟨key, ?_, ?_⟩
  · intro hn
    rw [show (r.Match w).1 = (r.matchLoop (r.FetchAllTransformedVariables w).1
      (r.FetchAllTransformedVariables w).2).1 from rfl, key]
    simp [hn]
  · intro ho
    rw [show (r.Match w).1 = (r.matchLoop (r.FetchAllTransformedVariables w).1
      (r.FetchAllTransformedVariables w).2).1 from rfl, key]
    constructor
    · rintro ⟨pre, v, post, hv, hx⟩
      rw [afterTests_readonly _ ho] at hx
      exact ⟨v, by simp [hv], hx⟩
    · rintro ⟨v, hv, hx⟩
      obtain ⟨pre, post, hsplit⟩ := List.append_of_mem hv
      exact ⟨pre, v, post, hsplit, by rw [afterTests_readonly _ ho]; exact hx⟩

theorem Match_iff_some_value_witness :
    exWorld.tx.Abort = false
      ∧ (exRule.Match exWorld).1 = true
      ∧ ((exRule.Match exWorld).1 = true ↔
          ∃ v ∈ (exRule.FetchAllTransformedVariables exWorld).1,
            (exRule.Not != (exRule.Operator.Match
              (exRule.FetchAllTransformedVariables exWorld).2.tx v).1) = true)
      ∧ (exSub.Match exWorld).1 = true
      ∧ ((exSub.Match exWorld).1 = true ↔ ∃ pre v post,
          (exSub.FetchAllTransformedVariables exWorld).1 = pre ++ v :: post
          ∧ (exSub.Operator.Match (afterTests exSub.Operator pre
              (exSub.FetchAllTransformedVariables exWorld).2.tx) v).1 = false) :=
  ⟨rfl, by decide,
    (Match_iff_some_value exRule exWorld
      (abortClear_of_operator exRule (fun _ _ ht => ht) _ _ (by decide))).2.2 (fun _ _ => rfl),
    by decide,
    (Match_iff_some_value exSub exWorld
      (abortClear_of_operator exSub (fun _ _ ht => ht) _ _ (by decide))).2.1 rfl⟩

/-- C5, as stated, fails: the operator of `exAbortRule` sets the abort flag while
it tests the first value, `"evil"`, which matches; the flag was clear before, it
is set in the middle of the iteration, and `Match` returns true. -/
theorem Match_abort_while_matching :
    exEvilFirst.tx.Abort = false
      ∧ (exAbortRule.FetchAllTransformedVariables exEvilFirst).1 = ["evil", "good"]
      ∧ (exAbortRule.FetchAllTransformedVariables exEvilFirst).2.tx.Abort = false
      ∧ (exAbortRule.Operator.Match
          (exAbortRule.FetchAllTransformedVariables exEvilFirst).2.tx "evil").2.Abort = true
      ∧ (exAbortRule.Match exEvilFirst).2.tx.Abort = true
      ∧ (exAbortRule.Match exEvilFirst).1 = true := by
  decide

/-- C5, amended: if the values `pre` at the head of the transformed sequence were
all tested (the flag was clear before each test) without a match, and the flag is
set once they have been tested (`pre` may be empty: the flag was set before the
loop), then `Match` returns false and the operator was called on `pre` and on
nothing else, whatever values follow. -/
theorem Match_stops_on_abort (r : SecRule σ) (w : World σ) (pre post : List String)
    (hvals : (r.FetchAllTransformedVariables w).1 = pre ++ post)
    (htested : ∀ p1 v p2, pre = p1 ++ v :: p2 →
      (afterTests r.Operator p1 (r.FetchAllTransformedVariables w).2.tx).Abort = false
        ∧ (r.Not != (r.Operator.Match
            (afterTests r.Operator p1 (r.FetchAllTransformedVariables w).2.tx) v).1) = false)
    (habort : (afterTests r.Operator pre (r.FetchAllTransformedVariables w).2.tx).Abort = true) :
    (r.Match w).1 = false
      ∧ (r.Match w).2.tx = afterTests r.Operator pre (r.FetchAllTransformedVariables w).2.tx
      ∧ operatorCalls (r.Match w).2.log = operatorCalls w.log ++ pre := by
  have h := matchLoop_stops r pre post (r.FetchAllTransformedVariables w).2 htested habort
  rw [← hvals] at h
  have hm : r.Match w = _ := h
  rw [hm]
  refine ⟨rfl, rfl, ?_⟩
  show operatorCalls ((r.FetchAllTransformedVariables w).2.log
    ++ pre.map (Event.operatorMatch r.Operator)) = _
  rw [operatorCalls_append_map, FetchAll_operatorCalls]

theorem Match_stops_on_abort_witness :
    (exAbortRule.FetchAllTransformedVariables exWorld).1 = ["good"] ++ ["evil"]
      ∧ (exAbortRule.Operator.Match (afterTests exAbortRule.Operator ["good"]
          (exAbortRule.FetchAllTransformedVariables exWorld).2.tx) "evil").1 = true
      ∧ (exAbortRule.Match exWorld).1 = false
      ∧ (exAbortRule.Match exWorld).2.tx
          = afterTests exAbortRule.Operator ["good"]
              (exAbortRule.FetchAllTransformedVariables exWorld).2.tx
      ∧ operatorCalls (exAbortRule.Match exWorld).2.log = operatorCalls exWorld.log ++ ["good"] :=
  ⟨by decide, by decide,
    Match_stops_on_abort exAbortRule exWorld ["good"] ["evil"] (by decide)
      (fun p1 v p2 hp => by
        rcases p1 with _ | ⟨x, p1⟩
        · simp only [List.nil_append, List.cons.injEq] at hp
          obtain ⟨rfl, -⟩ := hp
          decide
        · simp at hp)
      (by decide)⟩

/-- C6: when the abort flag, set at the call, is still set once the values are
fetched and transformed (`Fetch` and `Trans` have not cleared it), `Match` returns
false right after the fetch without any call of `Operator.Match`, whatever the
values, the operator and `Not` are, and `Do` returns without calling any action. -/
theorem Match_on_aborted (r : SecRule σ) (w : World σ)
    (h : w.tx.Abort = true → (r.FetchAllTransformedVariables w).2.tx.Abort = true)
    (h0 : w.tx.Abort = true) :
    r.Match w = (false, (r.FetchAllTransformedVariables w).2)
      ∧ operatorCalls (r.Match w).2.log = operatorCalls w.log
      ∧ r.Do w = .ok (r.FetchAllTransformedVariables w).2
      ∧ actionCalls (r.FetchAllTransformedVariables w).2.log = actionCalls w.log := by
  have hm : r.Match w = (false, (r.FetchAllTransformedVariables w).2) :=
    matchLoop_aborted r _ _ (h h0)
  refine ⟨hm, ?_, ?_, ?_⟩
  · rw [hm]
    exact FetchAll_operatorCalls r w
  · simp [SecRule.Do, hm]
  · have := Match_actionCalls r w
    rwa [hm] at this

theorem Match_on_aborted_witness :
    exAborted.tx.Abort = true
      ∧ (exRule.FetchAllTransformedVariables exAborted).1 = ["good", "evil"]
      ∧ exRule.Match exAborted = (false, (exRule.FetchAllTransformedVariables exAborted).2)
      ∧ operatorCalls (exRule.Match exAborted).2.log = operatorCalls exAborted.log
      ∧ exRule.Do exAborted = .ok (exRule.FetchAllTransformedVariables exAborted).2
      ∧ actionCalls (exRule.FetchAllTransformedVariables exAborted).2.log
          = actionCalls exAborted.log :=
  ⟨rfl, by decide,
    Match_on_aborted exRule exAborted
      (FetchAll_keeps (fun t => t.Abort = true) exRule
        (fun v hv t ht => by
          simp only [exRule, SecRule.Variables, List.mem_singleton] at hv
          subst hv
          exact ht)
        (fun f hf => by simp [exRule, SecRule.Trans] at hf) exAborted)
      rfl⟩

/-- C7: `TransformString` applies the rule's transforms from left to right: its
value and transaction are the left fold of the `Trans` list over `v`, and the
calls it makes are the transforms in list order; with `Trans = [A, B]` the result
is `B(A(v))`, `A` being called on `v` and `B` on `A`'s result; with an empty
`Trans` list the result is `v` and nothing is called. -/
theorem TransformString_left_fold (r : SecRule σ) (w : World σ) (v : String) :
    ((r.TransformString w v).1, (r.TransformString w v).2.tx)
        = r.Trans.foldl (fun acc f => f.Trans acc.2 acc.1) (v, w.tx)
      ∧ (∀ A B, r.Trans = [A, B] →
          (r.TransformString w v).1 = (B.Trans (A.Trans w.tx v).2 (A.Trans w.tx v).1).1
          ∧ (r.TransformString w v).2.log
              = w.log ++ [Event.trans A v, Event.trans B (A.Trans w.tx v).1])
      ∧ (r.Trans = [] → r.TransformString w v = (v, w)) := by
  refine ⟨?_, ?_, ?_⟩
  · unfold SecRule.TransformString
    generalize r.Trans = ts
    induction ts generalizing w v with
    | nil => rfl
    | cons f ts ih => simpa [callTrans] using ih (callTrans f w v).2 (callTrans f w v).1
  · intro A B h
    simp [SecRule.TransformString, h, callTrans]
  · intro h
    simp [SecRule.TransformString, h]

theorem TransformString_left_fold_witness :
    (exTransRule.TransformString exWorld "v").1 = "vab"
      ∧ operatorCalls (exTransRule.Match exWorld).2.log = ["goodab", "evilab"] := by
  refine ⟨?_, by decide⟩
  rw [((TransformString_left_fold exTransRule exWorld "v").2.1 exAppendA exAppendB rfl).1]
  decide

/-- C8: in a rule set built from `NewSecRuleSet` by `AddRules` calls (which
always return a rule set), a rule whose `Phase` is `PhaseBegin`, `PhaseEnd` or
outside that range is in no phase bucket, and whatever the phase and the offset,
`Process` either does nothing, or panics before it runs a rule, or runs the `Do`
of the rule it finds at `offset`, a rule of the bucket with a phase strictly
between the sentinels and so another rule. -/
theorem AddRules_drops_invalid_phase (calls : List (List (SecRule σ))) (r : SecRule σ)
    (hbad : r.Phase ≤ PhaseBegin ∨ PhaseEnd ≤ r.Phase) :
    (∀ p, r ∉ (buildRuleSet calls).bucket p)
      ∧ ∀ (w : World σ) (phase offset : Int),
          (buildRuleSet calls).Process w phase offset = .ok w
          ∨ (buildRuleSet calls).Process w phase offset = .error w
          ∨ ∃ rule, sliceIndex ((buildRuleSet calls).bucket phase) offset = some rule
              ∧ rule ≠ r ∧ PhaseBegin < rule.Phase ∧ rule.Phase < PhaseEnd
              ∧ (buildRuleSet calls).Process w phase offset = rule.Do w := by
  have hv := buildRuleSet_valid calls
  have hnot : ∀ p, ∀ x ∈ (buildRuleSet calls).bucket p, x ≠ r := by
    intro p x hx hxr
    have := hv p x hx
    rw [hxr] at this
    omega
  refine ⟨fun p hp => hnot p r hp rfl, fun w phase offset => ?_⟩
  obtain ⟨hge, hnil, hneg, hin⟩ := Process_cases (buildRuleSet calls) w phase offset
  by_cases h1 : ((buildRuleSet calls).bucket phase).length ≤ offset
  · exact Or.inl (hge h1)
  · by_cases h0 : 0 ≤ offset
    · obtain ⟨rule, hs, hmem, hdo⟩ := hin h0 (by omega)
      have := hv phase rule hmem
      exact Or.inr (Or.inr ⟨rule, hs, hnot phase rule hmem, by omega, by omega, hdo⟩)
    · by_cases hP : (buildRuleSet calls).Phases = none
      · exact Or.inl (hnil hP)
      · exact Or.inr (Or.inl (hneg hP (by omega)))

theorem AddRules_drops_invalid_phase_witness :
    (exBeginRule.Phase ≤ PhaseBegin ∨ PhaseEnd ≤ exBeginRule.Phase)
      ∧ ((buildRuleSet exCalls).bucket PhaseRequestHeaders).map SecRule.Id = [1, 2]
      ∧ ((buildRuleSet exCalls).bucket PhaseBegin).map SecRule.Id = []
      ∧ ((buildRuleSet exCalls).bucket PhaseEnd).map SecRule.Id = []
      ∧ ∀ p, exBeginRule ∉ (buildRuleSet exCalls).bucket p :=
  ⟨by decide, by decide, by decide, by decide,
    (AddRules_drops_invalid_phase exCalls exBeginRule (by decide)).1⟩

/-- C9 fails on a negative offset: on the rule set of `NewSecRuleSet` (no rules,
map not nil) `Process` with offset `-1` panics, and so does `Process` on every
rule set whose map is not nil with every negative offset: `len(p) > offset`
holds and `p[offset]` is out of range. -/
theorem Process_negative_offset_panics :
    (NewSecRuleSet : SecRuleSet (List String)).Process exWorld PhaseConnection (-1)
        = .error exWorld
      ∧ ∀ (rs : SecRuleSet (List String)) (w : World (List String)) (phase offset : Int),
          rs.Phases ≠ none → offset < 0 → rs.Process w phase offset = .error w :=
  ⟨rfl, fun rs w phase offset => (Process_cases rs w phase offset).2.2.1⟩

/-- C10: with `0 ≤ offset < ` the number of rules of the phase, `Process` is the
`Do` of the rule at position `offset` of that phase's sequence, and nothing else. -/
theorem Process_runs_rule_at_offset (rs : SecRuleSet σ) (w : World σ) (phase offset : Int)
    (h0 : 0 ≤ offset) (h1 : offset < (rs.bucket phase).length) :
    ∃ rule, (rs.bucket phase)[offset.toNat]? = some rule
      ∧ rs.Process w phase offset = rule.Do w := by
  obtain ⟨rule, hs, -, hdo⟩ := (Process_cases rs w phase offset).2.2.2 h0 h1
  refine ⟨rule, ?_, hdo⟩
  simpa [sliceIndex, h0] using hs

theorem Process_runs_rule_at_offset_witness :
    ((buildRuleSet exCalls).bucket PhaseRequestHeaders).map SecRule.Id = [1, 2]
      ∧ ∃ rule, ((buildRuleSet exCalls).bucket PhaseRequestHeaders)[(1 : Int).toNat]? = some rule
          ∧ (buildRuleSet exCalls).Process exWorld PhaseRequestHeaders 1 = rule.Do exWorld :=
  ⟨by decide,
    Process_runs_rule_at_offset (buildRuleSet exCalls) exWorld PhaseRequestHeaders 1
      (by decide) (by decide)⟩

/-! ## Every action runs -/

theorem dispatchOrder_perm (as : List (Action σ)) (h : ValidGroups as) :
    (dispatchOrder as).Perm as := by
  induction as with
  | nil => simp [dispatchOrder]
  | cons a as ih =>
    have ih1 := ih (fun b hb => h b (List.mem_cons_of_mem _ hb))
    obtain ⟨h0, h1⟩ := h a (List.mem_cons_self _ _)
    have hg : a.ActionGroup = 0 ∨ a.ActionGroup = 1 ∨ a.ActionGroup = 2 ∨ a.ActionGroup = 3
        ∨ a.ActionGroup = 4 := by
      simp only [ActionGroupCount] at h1
      omega
    simp only [dispatchOrder, ActionGroupMetaData, ActionGroupData, ActionGroupNonDisruptive,
      ActionGroupDisruptive, ActionGroupFlow] at ih1 ⊢
    rcases hg with hg | hg | hg | hg | hg
    · simp only [List.filter_cons, hg]
      simpa using ih1
    · simp only [List.filter_cons, hg]
      simp only [List.append_assoc]
      exact (List.perm_middle.trans (List.Perm.cons a (by simpa using ih1)))
    · simp only [List.filter_cons, hg]
      simp only [List.append_assoc]
      rw [← List.append_assoc]
      exact (List.perm_middle.trans (List.Perm.cons a (by simpa using ih1)))
    · simp only [List.filter_cons, hg]
      simp only [List.append_assoc]
      rw [← List.append_assoc, ← List.append_assoc]
      exact (List.perm_middle.trans (List.Perm.cons a (by simpa using ih1)))
    · simp only [List.filter_cons, hg]
      simp only [List.append_assoc]
      rw [← List.append_assoc, ← List.append_assoc, ← List.append_assoc]
      exact (List.perm_middle.trans (List.Perm.cons a (by simpa using ih1)))

/-- C11: on a list whose actions report valid groups, `ActionsExecute` returns
having called `Do` on every action of the list exactly once: the sequence of its
calls is a permutation of the list (the dispatch order), each `Do` acting on the
transaction left by the call before.  The abort flag is never consulted: this
holds for every transaction, aborted before the call or by one of the actions. -/
theorem ActionsExecute_runs_every_action (w : World σ) (as : List (Action σ))
    (h : ValidGroups as) :
    ∃ w1, ActionsExecute w as = .ok w1
      ∧ actionCalls w1.log = actionCalls w.log ++ dispatchOrder as
      ∧ (dispatchOrder as).Perm as
      ∧ (dispatchOrder as).length = as.length
      ∧ w1.tx = doAll (dispatchOrder as) w.tx :=
  ⟨_, ActionsExecute_ok w as h, actionCalls_append_map _ _, dispatchOrder_perm as h,
    (dispatchOrder_perm as h).length_eq, rfl⟩

theorem ActionsExecute_runs_every_action_witness :
    exAborted.tx.Abort = true
      ∧ (∃ w1, ActionsExecute exAborted exRule.Actions = .ok w1
          ∧ actionCalls w1.log = [exMetaDataC, exDisruptiveB, exFlowA])
      ∧ exWorld.tx.Abort = false
      ∧ (doAll [exMetaDataC, exDisruptiveB] exWorld.tx).Abort = true
      ∧ ∃ w1, ActionsExecute exWorld exRule.Actions = .ok w1
          ∧ actionCalls w1.log = [exMetaDataC, exDisruptiveB, exFlowA] := by
  obtain ⟨w1, h1, h2, -⟩ := ActionsExecute_runs_every_action exAborted exRule.Actions exRule_valid
  obtain ⟨w2, h3, h4, -⟩ := ActionsExecute_runs_every_action exWorld exRule.Actions exRule_valid
  exact ⟨rfl, ⟨w1, h1, h2.trans rfl⟩, rfl, by decide, w2, h3, h4.trans rfl⟩

/-! ## Registration -/

theorem addRulesLoop_bucket (rules : List (SecRule σ)) (phases : Int → List (SecRule σ))
    (p : Int) :
    addRulesLoop rules phases p = phases p
      ++ rules.filter (fun r => r.Phase = p ∧ PhaseBegin < r.Phase ∧ r.Phase < PhaseEnd) := by
  induction rules generalizing phases with
  | nil => simp [addRulesLoop]
  | cons rule rules ih =>
    unfold addRulesLoop
    split
    · rename_i hbad
      have : ¬ (rule.Phase = p ∧ PhaseBegin < rule.Phase ∧ rule.Phase < PhaseEnd) := by omega
      rw [ih, List.filter_cons]
      simp [this]
    · rename_i hok
      rw [ih, List.filter_cons]
      by_cases hp : p = rule.Phase
      · subst hp
        have h1 : PhaseBegin < rule.Phase := by omega
        have h2 : rule.Phase < PhaseEnd := by omega
        simp [h1, h2]
      · have : ¬ (rule.Phase = p ∧ PhaseBegin < rule.Phase ∧ rule.Phase < PhaseEnd) :=
          fun h => hp h.1.symm
        simp [hp, this]

/-- C12: after `AddRules`, the bucket of every phase `p` is the bucket before
followed by exactly the passed rules whose `Phase` is `p`, with `p` strictly
between `PhaseBegin` and `PhaseEnd`, in the order they were passed (so a bucket
that receives no rule is unchanged); `DefaultActions` is unchanged. -/
theorem AddRules_appends_in_order (rs : SecRuleSet σ) (rules : List (SecRule σ)) (p : Int) :
    (rs.AddRules rules).bucket p = rs.bucket p
        ++ rules.filter (fun r => r.Phase = p ∧ PhaseBegin < r.Phase ∧ r.Phase < PhaseEnd)
      ∧ ((∀ r ∈ rules, r.Phase ≠ p) → (rs.AddRules rules).bucket p = rs.bucket p)
      ∧ (rs.AddRules rules).DefaultActions = rs.DefaultActions := by
  have key : (rs.AddRules rules).bucket p = rs.bucket p
      ++ rules.filter (fun r => r.Phase = p ∧ PhaseBegin < r.Phase ∧ r.Phase < PhaseEnd) := by
    rcases rs with ⟨_ | m, D⟩
    · simp [SecRuleSet.AddRules, SecRuleSet.bucket, addRulesLoop_bucket]
    · simp [SecRuleSet.AddRules, SecRuleSet.bucket, addRulesLoop_bucket]
  refine ⟨key, fun hne => ?_, rfl⟩
  rw [key, List.filter_eq_nil_iff.2 (fun r hr => by simp [hne r hr]), List.append_nil]

/-! ## Order of the actions of a chain -/

theorem Do_matched_valid (r : SecRule σ) (w : World σ) (hv : ChainValid r)
    (hm : (chainVerdict r w).1 = true) :
    r.Do w = .ok ⟨doAll (chainActions r) (chainVerdict r w).2.tx,
      (chainVerdict r w).2.log ++ (chainActions r).map Event.actionDo⟩ := by
  rw [Do_matched r w hm, ActionsExecute_ok _ _ hv.1]
  simp only []
  rw [subRulesExecute_ok _ _ hv.2]
  simp [chainActions, doAll_append]

/-- C13: a rule that matches together with all its sub-rules (actions of valid
groups) calls the primary rule's actions in dispatch order, then the actions of
the first sub-rule in dispatch order, and so on in sub-rule order, each `Do` on
the transaction left by the one before; grouping is per rule, not across the
chain. -/
theorem Do_chain_action_order (r : SecRule σ) (w : World σ) (hv : ChainValid r)
    (hm : (chainVerdict r w).1 = true) :
    ∃ w1, r.Do w = .ok w1
      ∧ actionCalls w1.log = actionCalls w.log ++ dispatchOrder r.Actions
          ++ r.SubRules.flatMap (fun sub => dispatchOrder sub.Actions)
      ∧ w1.tx = doAll (r.SubRules.flatMap (fun sub => dispatchOrder sub.Actions))
          (doAll (dispatchOrder r.Actions) (chainVerdict r w).2.tx) := by
  refine ⟨_, Do_matched_valid r w hv hm, ?_, ?_⟩
  · have hc : actionCalls (chainVerdict r w).2.log = actionCalls w.log := by
      rw [(chainVerdict_eq r w).2 hm, subRulesMatch_actionCalls, Match_actionCalls]
    show actionCalls ((chainVerdict r w).2.log ++ (chainActions r).map Event.actionDo) = _
    rw [actionCalls_append_map, hc, chainActions, List.append_assoc]
  · simp [chainActions, doAll_append]

theorem Do_chain_action_order_witness :
    (chainVerdict exChain exWorld).1 = true
      ∧ (∃ w1, exChain.Do exWorld = .ok w1
          ∧ (actionCalls w1.log).map Action.Name = ["DisruptiveB", "FlowA", "MetaDataC"])
      ∧ (dispatchOrder (exChain.Actions ++ exSub.Actions)).map Action.Name
          = ["MetaDataC", "DisruptiveB", "FlowA"] := by
  obtain ⟨w1, h1, h2, -⟩ := Do_chain_action_order exChain exWorld exChain_valid (by decide)
  refine ⟨by decide, ⟨w1, h1, ?_⟩, by decide⟩
  rw [h2]
  decide

/-! ## Fetching and transforming -/

theorem TransformString_value (r : SecRule σ) (w : World σ) (v : String) :
    ((r.TransformString w v).1, (r.TransformString w v).2.tx)
      = r.Trans.foldl (fun acc f => f.Trans acc.2 acc.1) (v, w.tx) := by
  unfold SecRule.TransformString
  generalize r.Trans = ts
  induction ts generalizing w v with
  | nil => rfl
  | cons f ts ih => simpa [callTrans] using ih (callTrans f w v).2 (callTrans f w v).1

theorem TransformVariable_eq (r : SecRule σ) (w : World σ) (vr : Variable σ) :
    r.TransformVariable w vr = transformEach r (callFetch vr w).1 (callFetch vr w).2 := by
  have key : ∀ (vs acc : List String) (w1 : World σ),
      vs.foldl (fun (acc : List String × World σ) v =>
          (acc.1 ++ [(r.TransformString acc.2 v).1], (r.TransformString acc.2 v).2)) (acc, w1)
        = (acc ++ (transformEach r vs w1).1, (transformEach r vs w1).2) := by
    intro vs
    induction vs with
    | nil => intro acc w1; simp [transformEach]
    | cons v vs ih => intro acc w1; simp [transformEach, ih]
  simpa [SecRule.TransformVariable] using key (callFetch vr w).1 [] (callFetch vr w).2

theorem FetchAll_eq (r : SecRule σ) (w : World σ) :
    r.FetchAllTransformedVariables w = fetchEach r r.Variables w := by
  have key : ∀ (vrs : List (Variable σ)) (acc : List String) (w1 : World σ),
      vrs.foldl (fun (acc : List String × World σ) v =>
          (acc.1 ++ (r.TransformVariable acc.2 v).1, (r.TransformVariable acc.2 v).2)) (acc, w1)
        = (acc ++ (fetchEach r vrs w1).1, (fetchEach r vrs w1).2) := by
    intro vrs
    induction vrs with
    | nil => intro acc w1; simp [fetchEach]
    | cons vr vrs ih =>
      intro acc w1
      rw [List.foldl_cons, ih]
      simp [fetchEach, TransformVariable_eq]
  simpa [SecRule.FetchAllTransformedVariables] using key r.Variables [] w

theorem transformEach_length (r : SecRule σ) (vs : List String) (w : World σ) :
    (transformEach r vs w).1.length = vs.length := by
  induction vs generalizing w with
  | nil => rfl
  | cons v vs ih => simp [transformEach, ih]

theorem fetchEach_length (r : SecRule σ) (vrs : List (Variable σ)) (w : World σ) :
    (fetchEach r vrs w).1.length = ((fetchedLists r vrs w).map List.length).sum := by
  induction vrs generalizing w with
  | nil => rfl
  | cons vr vrs ih => simp [fetchEach, fetchedLists, ih, transformEach_length, callFetch]

theorem transformEach_readonly (r : SecRule σ)
    (hT : ∀ f ∈ r.Trans, ∀ t s, (f.Trans t s).2 = t) (vs : List String) (w : World σ) :
    (transformEach r vs w).1 = vs.map (transformValue r w.tx)
      ∧ (transformEach r vs w).2.tx = w.tx := by
  induction vs generalizing w with
  | nil => exact ⟨rfl, rfl⟩
  | cons v vs ih =>
    have hval : (r.TransformString w v).1 = transformValue r w.tx v :=
      congrArg Prod.fst (TransformString_value r w v)
    have htx : (r.TransformString w v).2.tx = w.tx :=
      TransformString_invariant (fun w1 => w1.tx = w.tx) r
        (fun f hf w1 s h => by simpa [callTrans, hT f hf] using h) w v rfl
    obtain ⟨ih1, ih2⟩ := ih (r.TransformString w v).2
    exact ⟨by simp [transformEach, ih1, hval, htx], by simp [transformEach, ih2, htx]⟩

theorem fetchEach_readonly (r : SecRule σ)
    (hT : ∀ f ∈ r.Trans, ∀ t s, (f.Trans t s).2 = t)
    (vrs : List (Variable σ)) (hF : ∀ vr ∈ vrs, ∀ t, (vr.Fetch t).2 = t) (w : World σ) :
    (fetchEach r vrs w).1
      = vrs.flatMap (fun vr => (vr.Fetch w.tx).1.map (transformValue r w.tx)) := by
  induction vrs generalizing w with
  | nil => rfl
  | cons vr vrs ih =>
    obtain ⟨h1, h2⟩ := transformEach_readonly r hT (callFetch vr w).1 (callFetch vr w).2
    have hf : (callFetch vr w).2.tx = w.tx := by
      simp [callFetch, hF vr (List.mem_cons_self _ _)]
    rw [hf] at h1 h2
    have ih1 := ih (fun x hx => hF x (List.mem_cons_of_mem _ hx))
      (transformEach r (callFetch vr w).1 (callFetch vr w).2).2
    rw [h2] at ih1
    simp only [fetchEach, List.flatMap_cons, h1, ih1]
    rfl

/-- C14: `FetchAllTransformedVariables` returns the variable-major concatenation:
the variables are fetched in the order of `Variables`, the values of each are
replaced by their `TransformString` in fetch order, and the values of a variable
come before those of the next one.  Its length is the sum of the numbers of
values the variables fetched.  When `Fetch` and `Trans` leave the transaction
alone, it is the concatenation over the variables of the fetched values, each
transformed. -/
theorem FetchAll_variable_major (r : SecRule σ) (w : World σ) :
    r.FetchAllTransformedVariables w = fetchEach r r.Variables w
      ∧ (r.FetchAllTransformedVariables w).1.length
          = ((fetchedLists r r.Variables w).map List.length).sum
      ∧ (fetchedLists r r.Variables w).length = r.Variables.length
      ∧ ((∀ vr ∈ r.Variables, ∀ t, (vr.Fetch t).2 = t) →
          (∀ f ∈ r.Trans, ∀ t s, (f.Trans t s).2 = t) →
          (r.FetchAllTransformedVariables w).1
            = r.Variables.flatMap
                (fun vr => (vr.Fetch w.tx).1.map (transformValue r w.tx))) := by
  refine ⟨FetchAll_eq r w, ?_, ?_, fun hF hT => ?_⟩
  · rw [FetchAll_eq, fetchEach_length]
  · generalize r.Variables = vrs
    induction vrs generalizing w with
    | nil => rfl
    | cons vr vrs ih => simp [fetchedLists, ih]
  · rw [FetchAll_eq, fetchEach_readonly r hT r.Variables hF]

theorem FetchAll_variable_major_witness :
    (exTwoVarRule.Variables.map fun vr => (vr.Fetch exThree.tx).1) = [["y", "z"], ["x"]]
      ∧ (exTwoVarRule.FetchAllTransformedVariables exThree).1 = ["yab", "zab", "xab"]
      ∧ (exTwoVarRule.FetchAllTransformedVariables exThree).1
          = exTwoVarRule.Variables.flatMap
              (fun vr => (vr.Fetch exThree.tx).1.map (transformValue exTwoVarRule exThree.tx)) :=
  ⟨by decide, by decide,
    (FetchAll_variable_major exTwoVarRule exThree).2.2.2
      (fun vr hvr t => by
        simp only [exTwoVarRule, SecRule.Variables, List.mem_cons, List.mem_singleton,
          List.not_mem_nil, or_false] at hvr
        rcases hvr with rfl | rfl <;> rfl)
      (fun f hf t s => by
        simp only [exTwoVarRule, SecRule.Trans, List.mem_cons, List.mem_singleton,
          List.not_mem_nil, or_false] at hf
        rcases hf with rfl | rfl <;> rfl)⟩

/-! ## Default actions -/

/-- C15: after a sequence of `AddDefaultActions` calls the `DefaultActions` list
is the list before followed by all passed actions in call and argument order (the
rules are untouched); `ExecuteDefaultActions` is `ActionsExecute` on that list,
whatever rules the rule set holds, and with valid groups it calls the default
actions in dispatch order on every transaction, aborted or not. -/
theorem DefaultActions_accumulate_and_dispatch (rs : SecRuleSet σ)
    (calls : List (List (Action σ))) (w : World σ) :
    (calls.foldl (fun s as => s.AddDefaultActions as) rs).DefaultActions
        = rs.DefaultActions ++ calls.flatten
      ∧ (calls.foldl (fun s as => s.AddDefaultActions as) NewSecRuleSet).DefaultActions
        = calls.flatten
      ∧ (calls.foldl (fun s as => s.AddDefaultActions as) rs).Phases = rs.Phases
      ∧ rs.ExecuteDefaultActions w = ActionsExecute w rs.DefaultActions
      ∧ (∀ rs2 : SecRuleSet σ, rs2.DefaultActions = rs.DefaultActions →
          rs2.ExecuteDefaultActions w = rs.ExecuteDefaultActions w)
      ∧ (ValidGroups rs.DefaultActions →
          rs.ExecuteDefaultActions w
            = .ok ⟨doAll (dispatchOrder rs.DefaultActions) w.tx,
                w.log ++ (dispatchOrder rs.DefaultActions).map Event.actionDo⟩) := by
  have key : ∀ (cs : List (List (Action σ))) (s : SecRuleSet σ),
      (cs.foldl (fun s as => s.AddDefaultActions as) s).DefaultActions
          = s.DefaultActions ++ cs.flatten
        ∧ (cs.foldl (fun s as => s.AddDefaultActions as) s).Phases = s.Phases := by
    intro cs
    induction cs with
    | nil => intro s; simp
    | cons c cs ih =>
      intro s
      rw [List.foldl_cons]
      obtain ⟨h1, h2⟩ := ih (s.AddDefaultActions c)
      exact ⟨by rw [h1]; simp [SecRuleSet.AddDefaultActions], by rw [h2]; rfl⟩
  refine ⟨(key calls rs).1, ?_, (key calls rs).2, rfl, fun rs2 h => ?_, fun hv => ?_⟩
  · rw [(key calls NewSecRuleSet).1]
    simp [NewSecRuleSet]
  · simp [SecRuleSet.ExecuteDefaultActions, h]
  · exact ActionsExecute_ok w rs.DefaultActions hv

/-! ## Short circuit of `Match` -/

theorem matchLoop_no_match (r : SecRule σ) (vs : List String) (w : World σ)
    (htested : ∀ p1 v p2, vs = p1 ++ v :: p2 →
      (afterTests r.Operator p1 w.tx).Abort = false
        ∧ (r.Not != (r.Operator.Match (afterTests r.Operator p1 w.tx) v).1) = false) :
    r.matchLoop vs w
      = (false, ⟨afterTests r.Operator vs w.tx, w.log ++ vs.map (Event.operatorMatch r.Operator)⟩) := by
  induction vs generalizing w with
  | nil => simp [SecRule.matchLoop, afterTests]
  | cons v vs ih =>
    obtain ⟨h0, h1⟩ := htested [] v vs rfl
    simp only [afterTests, List.foldl_nil] at h0 h1
    have hstep : r.matchLoop (v :: vs) w = r.matchLoop vs (callMatch r.Operator w v).2 := by
      simp [SecRule.matchLoop, h0, callMatch, h1]
    rw [hstep, ih (callMatch r.Operator w v).2
      (fun p1 x p2 hp => by
        simpa [afterTests, callMatch] using htested (v :: p1) x p2 (by simp [hp]))]
    simp [afterTests, callMatch]

theorem matchLoop_first_match (r : SecRule σ) (pre : List String) (v : String)
    (post : List String) (w : World σ)
    (htested : ∀ p1 u p2, pre = p1 ++ u :: p2 →
      (afterTests r.Operator p1 w.tx).Abort = false
        ∧ (r.Not != (r.Operator.Match (afterTests r.Operator p1 w.tx) u).1) = false)
    (hclear : (afterTests r.Operator pre w.tx).Abort = false)
    (hv : (r.Not != (r.Operator.Match (afterTests r.Operator pre w.tx) v).1) = true) :
    r.matchLoop (pre ++ v :: post) w
      = (true, ⟨afterTests r.Operator (pre ++ [v]) w.tx,
          w.log ++ (pre ++ [v]).map (Event.operatorMatch r.Operator)⟩) := by
  induction pre generalizing w with
  | nil =>
    simp only [afterTests, List.foldl_nil] at hclear hv
    simp [SecRule.matchLoop, hclear, callMatch, hv, afterTests]
  | cons u pre ih =>
    obtain ⟨h0, h1⟩ := htested [] u pre rfl
    simp only [afterTests, List.foldl_nil] at h0 h1
    have hstep : r.matchLoop (u :: pre ++ v :: post) w
        = r.matchLoop (pre ++ v :: post) (callMatch r.Operator w u).2 := by
      simp [SecRule.matchLoop, h0, callMatch, h1]
    rw [hstep, ih (callMatch r.Operator w u).2
      (fun p1 x p2 hp => by
        simpa [afterTests, callMatch] using htested (u :: p1) x p2 (by simp [hp]))
      (by simpa [afterTests, callMatch] using hclear)
      (by simpa [afterTests, callMatch] using hv)]
    simp [afterTests, callMatch]

/-- C16: when the abort flag is clear each time the loop comes to test a value,
`Match` stops at the first matching value: if `v` is the first value of the
transformed sequence with `Not XOR Operator.Match(t, v)` true, `Match` returns
true and `Operator.Match` was called on the values up to and including `v`, once
each and in order, and on none after it; if no value matches, `Match` returns
false and the operator was called once on every value, in order. -/
theorem Match_short_circuit (r : SecRule σ) (w : World σ)
    (H : AbortClearAtTests r (r.FetchAllTransformedVariables w).1
      (r.FetchAllTransformedVariables w).2.tx) :
    (∀ pre v post, (r.FetchAllTransformedVariables w).1 = pre ++ v :: post →
        (∀ q1 u q2, pre = q1 ++ u :: q2 →
          (r.Not != (r.Operator.Match
            (afterTests r.Operator q1 (r.FetchAllTransformedVariables w).2.tx) u).1) = false) →
        (r.Not != (r.Operator.Match
          (afterTests r.Operator pre (r.FetchAllTransformedVariables w).2.tx) v).1) = true →
        (r.Match w).1 = true
          ∧ operatorCalls (r.Match w).2.log = operatorCalls w.log ++ (pre ++ [v]))
      ∧ ((∀ q1 u q2, (r.FetchAllTransformedVariables w).1 = q1 ++ u :: q2 →
          (r.Not != (r.Operator.Match
            (afterTests r.Operator q1 (r.FetchAllTransformedVariables w).2.tx) u).1) = false) →
        (r.Match w).1 = false
          ∧ operatorCalls (r.Match w).2.log
              = operatorCalls w.log ++ (r.FetchAllTransformedVariables w).1) := by
  refine ⟨fun pre v post hvals hno hv => ?_, fun hno => ?_⟩
  · have hm := matchLoop_first_match r pre v post (r.FetchAllTransformedVariables w).2
      (fun p1 u p2 hp => ⟨H p1 u (p2 ++ v :: post) (by simp [hvals, hp])
          (fun q1 x q2 hq => hno q1 x (q2 ++ u :: p2) (by simp [hp, hq])), hno p1 u p2 hp⟩)
      (H pre v post hvals hno) hv
    rw [← hvals] at hm
    have hM : r.Match w = _ := hm
    rw [hM]
    refine ⟨rfl, ?_⟩
    show operatorCalls ((r.FetchAllTransformedVariables w).2.log
      ++ (pre ++ [v]).map (Event.operatorMatch r.Operator)) = _
    rw [operatorCalls_append_map, FetchAll_operatorCalls]
  · have hm := matchLoop_no_match r (r.FetchAllTransformedVariables w).1
      (r.FetchAllTransformedVariables w).2
      (fun p1 u p2 hp => ⟨H p1 u p2 hp
          (fun q1 x q2 hq => hno q1 x (q2 ++ u :: p2) (by simp [hp, hq])), hno p1 u p2 hp⟩)
    have hM : r.Match w = _ := hm
    rw [hM]
    refine ⟨rfl, ?_⟩
    show operatorCalls ((r.FetchAllTransformedVariables w).2.log
      ++ (r.FetchAllTransformedVariables w).1.map (Event.operatorMatch r.Operator)) = _
    rw [operatorCalls_append_map, FetchAll_operatorCalls]

theorem Match_short_circuit_witness :
    (exRule.FetchAllTransformedVariables exEvilFirst).1 = ["evil", "good"]
      ∧ (exRule.Match exEvilFirst).1 = true
      ∧ operatorCalls (exRule.Match exEvilFirst).2.log
          = operatorCalls exEvilFirst.log ++ ([] ++ ["evil"]) :=
  ⟨by decide,
    (Match_short_circuit exRule exEvilFirst
      (abortClear_of_operator exRule (fun _ _ ht => ht) _ _ (by decide))).1
      [] "evil" ["good"] (by decide) (fun q1 u q2 hq => by simp at hq) (by decide)⟩

/-! ## Nested sub-rules -/

theorem withSubRules_fields (s : SecRule σ) (subs : List (SecRule σ)) :
    (s.withSubRules subs).Variables = s.Variables
      ∧ (s.withSubRules subs).Trans = s.Trans
      ∧ (s.withSubRules subs).Operator = s.Operator
      ∧ (s.withSubRules subs).Not = s.Not
      ∧ (s.withSubRules subs).Actions = s.Actions
      ∧ (s.withSubRules subs).SubRules = subs := by
  cases s
  exact ⟨rfl, rfl, rfl, rfl, rfl, rfl⟩

theorem FetchAll_congr (r r2 : SecRule σ) (hV : r2.Variables = r.Variables)
    (hT : r2.Trans = r.Trans) (w : World σ) :
    r2.FetchAllTransformedVariables w = r.FetchAllTransformedVariables w := by
  have h1 : r2.TransformString = r.TransformString := by
    funext w1 s
    simp only [SecRule.TransformString, hT]
  have h2 : r2.TransformVariable = r.TransformVariable := by
    funext w1 vr
    simp only [SecRule.TransformVariable, h1]
  simp only [SecRule.FetchAllTransformedVariables, h2, hV]

theorem matchLoop_congr (r r2 : SecRule σ) (hO : r2.Operator = r.Operator)
    (hN : r2.Not = r.Not) (vs : List String) (w : World σ) :
    r2.matchLoop vs w = r.matchLoop vs w := by
  induction vs generalizing w with
  | nil => rfl
  | cons v vs ih => simp only [SecRule.matchLoop, hO, hN, ih]

/-- `Match` reads the variables, the transforms, the operator and `Not` of the
rule, and nothing else. -/
theorem Match_congr (r r2 : SecRule σ) (hV : r2.Variables = r.Variables)
    (hT : r2.Trans = r.Trans) (hO : r2.Operator = r.Operator) (hN : r2.Not = r.Not)
    (w : World σ) : r2.Match w = r.Match w := by
  simp only [SecRule.Match, FetchAll_congr r r2 hV hT, matchLoop_congr r r2 hO hN]

theorem Match_withSubRules (s : SecRule σ) (nested : List (SecRule σ)) (w : World σ) :
    (s.withSubRules nested).Match w = s.Match w := by
  obtain ⟨hV, hT, hO, hN, -, -⟩ := withSubRules_fields s nested
  exact Match_congr s _ hV hT hO hN w

theorem subRules_congr (subs subs2 : List (SecRule σ))
    (h : List.Forall₂ (fun s s2 => ∃ nested, s2 = s.withSubRules nested) subs subs2) :
    (∀ w, SecRule.subRulesMatch subs2 w = SecRule.subRulesMatch subs w)
      ∧ (∀ w, SecRule.subRulesExecute subs2 w = SecRule.subRulesExecute subs w) := by
  induction h with
  | nil => exact ⟨fun _ => rfl, fun _ => rfl⟩
  | cons hs _ ih =>
    obtain ⟨nested, rfl⟩ := hs
    refine ⟨fun w => ?_, fun w => ?_⟩
    · simp only [SecRule.subRulesMatch, Match_withSubRules, ih.1]
    · simp only [SecRule.subRulesExecute, (withSubRules_fields _ nested).2.2.2.2.1, ih.2]

/-- C17: replacing the `SubRules` of the sub-rules of `r` by any other lists
changes nothing in `Do(r)`: the outcome, the transaction and the whole sequence
of calls (matches tested, actions executed) are the same, and so is the match
decision of the chain. -/
theorem Do_ignores_nested_subrules (r : SecRule σ) (subs2 : List (SecRule σ)) (w : World σ)
    (h : List.Forall₂ (fun s s2 => ∃ nested, s2 = s.withSubRules nested) r.SubRules subs2) :
    (r.withSubRules subs2).Do w = r.Do w
      ∧ (chainVerdict (r.withSubRules subs2) w).1 = (chainVerdict r w).1 := by
  obtain ⟨hV, hT, hO, hN, hA, hS⟩ := withSubRules_fields r subs2
  have hM : ∀ w1, (r.withSubRules subs2).Match w1 = r.Match w1 :=
    fun w1 => Match_congr r _ hV hT hO hN w1
  obtain ⟨h1, h2⟩ := subRules_congr r.SubRules subs2 h
  refine ⟨?_, ?_⟩
  · simp only [SecRule.Do, hM, hS, hA, h1, h2]
  · rw [(chainVerdict_eq _ w).1, (chainVerdict_eq r w).1, hM, hS, h1]

theorem Do_ignores_nested_subrules_witness :
    (exNever.Match exWorld).1 = false
      ∧ ((exChain.withSubRules [exSub.withSubRules [exNever]]).Do exWorld = exChain.Do exWorld
        ∧ (chainVerdict (exChain.withSubRules [exSub.withSubRules [exNever]]) exWorld).1
            = (chainVerdict exChain exWorld).1) :=
  ⟨by decide,
    Do_ignores_nested_subrules exChain [exSub.withSubRules [exNever]] exWorld
      (List.Forall₂.cons ⟨[exNever], rfl⟩ List.Forall₂.nil)⟩

/-! ## What the core leaves of the transaction -/

theorem Match_keeps (P : Transaction σ → Prop) (r : SecRule σ) (h : r.MatchKeeps P)
    (w : World σ) (hw : P w.tx) : P (r.Match w).2.tx :=
  Match_invariant (fun w1 => P w1.tx) r
    (fun v hv w1 h1 => h.1 v hv w1.tx h1)
    (fun f hf w1 s h1 => h.2.1 f hf w1.tx s h1)
    (fun w1 v h1 => h.2.2 w1.tx v h1) w hw

theorem ActionsExecute_keeps (P : Transaction σ → Prop) (as : List (Action σ))
    (h : ∀ a ∈ as, ∀ t, P t → P (a.Do t)) (w : World σ) (hw : P w.tx) :
    P (outcome (ActionsExecute w as)).tx := by
  by_cases hv : ValidGroups as
  · rw [ActionsExecute_ok w as hv]
    exact foldl_invariant P _ (dispatchOrder as)
      (fun a ha t ht => h a ((dispatchOrder_perm as hv).subset ha) t ht) w.tx hw
  · rw [ActionsExecute_panic w as hv]
    exact hw

theorem subRulesExecute_keeps (P : Transaction σ → Prop) (subs : List (SecRule σ))
    (h : ∀ sub ∈ subs, ∀ a ∈ sub.Actions, ∀ t, P t → P (a.Do t)) (w : World σ) (hw : P w.tx) :
    P (outcome (SecRule.subRulesExecute subs w)).tx := by
  induction subs generalizing w with
  | nil => exact hw
  | cons sub rest ih =>
    have h1 := ActionsExecute_keeps P sub.Actions (h sub (List.mem_cons_self _ _)) w hw
    unfold SecRule.subRulesExecute
    cases hx : ActionsExecute w sub.Actions with
    | error w1 =>
      rw [hx] at h1
      exact h1
    | ok w1 =>
      rw [hx] at h1
      exact ih (fun s hs => h s (List.mem_cons_of_mem _ hs)) w1 h1

theorem Do_keeps (P : Transaction σ → Prop) (r : SecRule σ) (h : r.ChainKeeps P)
    (w : World σ) (hw : P w.tx) : P (outcome (r.Do w)).tx := by
  have h1 : P (r.Match w).2.tx := Match_keeps P r h.1.1 w hw
  have h2 : P (SecRule.subRulesMatch r.SubRules (r.Match w).2).2.tx :=
    subRulesMatch_invariant (fun w1 => P w1.tx) r.SubRules
      (fun sub hs w1 hw1 => Match_keeps P sub (h.2 sub hs).1 w1 hw1) _ h1
  have h3 := ActionsExecute_keeps P r.Actions h.1.2 _ h2
  unfold SecRule.Do
  split
  · exact h1
  · split
    · exact h2
    · cases hx : ActionsExecute (SecRule.subRulesMatch r.SubRules (r.Match w).2).2 r.Actions with
      | error w1 =>
        rw [hx] at h3
        exact h3
      | ok w1 =>
        rw [hx] at h3
        exact subRulesExecute_keeps P r.SubRules (fun s hs => (h.2 s hs).2) w1 h3

theorem Process_keeps (P : Transaction σ → Prop) (rs : SecRuleSet σ) (phase offset : Int)
    (h : ∀ r ∈ rs.bucket phase, r.ChainKeeps P) (w : World σ) (hw : P w.tx) :
    P (outcome (rs.Process w phase offset)).tx := by
  obtain ⟨hge, hnil, hneg, hin⟩ := Process_cases rs w phase offset
  by_cases h1 : ((rs.bucket phase).length : Int) ≤ offset
  · rw [hge h1]
    exact hw
  · by_cases h0 : 0 ≤ offset
    · obtain ⟨rule, -, hmem, hdo⟩ := hin h0 (by omega)
      rw [hdo]
      exact Do_keeps P rule (h rule hmem) w hw
    · by_cases hP : rs.Phases = none
      · rw [hnil hP]
        exact hw
      · rw [hneg hP (by omega)]
        exact hw

/-- A property `P` of the transaction that every capability of the rules involved
keeps on every transaction, holds of the transaction `Match`, `Do`,
`ActionsExecute`, `ExecuteDefaultActions` and `Process` leave behind, whether they
return or panic. -/
theorem core_leaves_transaction (P : Transaction σ → Prop) (w : World σ) (hw : P w.tx) :
    (∀ r : SecRule σ, r.MatchKeeps P → P (r.Match w).2.tx)
      ∧ (∀ r : SecRule σ, r.ChainKeeps P → P (outcome (r.Do w)).tx)
      ∧ (∀ as : List (Action σ), (∀ a ∈ as, ∀ t, P t → P (a.Do t)) →
          P (outcome (ActionsExecute w as)).tx)
      ∧ (∀ rs : SecRuleSet σ, (∀ a ∈ rs.DefaultActions, ∀ t, P t → P (a.Do t)) →
          P (outcome (rs.ExecuteDefaultActions w)).tx)
      ∧ (∀ (rs : SecRuleSet σ) (phase offset : Int),
          (∀ r ∈ rs.bucket phase, r.ChainKeeps P) →
          P (outcome (rs.Process w phase offset)).tx) :=
  ⟨fun r h => Match_keeps P r h w hw, fun r h => Do_keeps P r h w hw,
    fun as h => ActionsExecute_keeps P as h w hw,
    fun rs h => ActionsExecute_keeps P rs.DefaultActions h w hw,
    fun rs phase offset h => Process_keeps P rs phase offset h w hw⟩

theorem exQuiet_keeps : exQuiet.ChainKeeps (fun t => t.Abort = false) := by
  refine ⟨⟨⟨?_, ?_, ?_⟩, ?_⟩, ?_⟩
  · intro v hv t ht
    simp only [exQuiet, SecRule.Variables, List.mem_singleton] at hv
    subst hv
    exact ht
  · intro f hf t s ht
    simp only [exQuiet, SecRule.Trans, List.mem_singleton] at hf
    subst hf
    exact ht
  · exact fun t v ht => ht
  · intro a ha t ht
    simp only [exQuiet, SecRule.Actions, List.mem_cons, List.mem_singleton, List.not_mem_nil,
      or_false] at ha
    rcases ha with rfl | rfl <;> exact ht
  · intro sub hs
    simp only [exQuiet, SecRule.SubRules, List.mem_singleton] at hs
    subst hs
    refine ⟨⟨?_, ?_, ?_⟩, ?_⟩
    · intro v hv t ht
      simp only [exQuietSub, SecRule.Variables, List.mem_singleton] at hv
      subst hv
      exact ht
    · intro f hf
      simp [exQuietSub, SecRule.Trans] at hf
    · exact fun t v ht => ht
    · intro a ha t ht
      simp only [exQuietSub, SecRule.Actions, List.mem_singleton] at ha
      subst ha
      exact ht

theorem core_leaves_transaction_witness :
    exWorld.tx.Abort = false
      ∧ (chainVerdict exQuiet exWorld).1 = true
      ∧ (outcome (exQuiet.Do exWorld)).tx.Abort = false
      ∧ (exQuietSet.bucket PhaseRequestHeaders).map SecRule.Id = [10]
      ∧ (outcome (exQuietSet.Process exWorld PhaseRequestHeaders 0)).tx.Abort = false
      ∧ (outcome (exQuietSet.ExecuteDefaultActions exWorld)).tx.Abort = false :=
  ⟨rfl, by decide,
    (core_leaves_transaction (fun t => t.Abort = false) exWorld rfl).2.1 exQuiet exQuiet_keeps,
    by decide,
    (core_leaves_transaction (fun t => t.Abort = false) exWorld rfl).2.2.2.2 exQuietSet
      PhaseRequestHeaders 0 (fun r hr => by
        have hb : exQuietSet.bucket PhaseRequestHeaders = [exQuiet] := rfl
        rw [hb, List.mem_singleton] at hr
        subst hr
        exact exQuiet_keeps),
    (core_leaves_transaction (fun t => t.Abort = false) exWorld rfl).2.2.2.1 exQuietSet
      (fun a ha t ht => by
        simp only [exQuietSet, SecRuleSet.AddDefaultActions, SecRuleSet.AddRules, NewSecRuleSet,
          List.nil_append, List.mem_singleton] at ha
        subst ha
        exact ht)⟩

/-! ## A rule without values -/

theorem withNot_fields (r : SecRule σ) (b : Bool) :
    (r.withNot b).Variables = r.Variables
      ∧ (r.withNot b).Trans = r.Trans
      ∧ (r.withNot b).Operator = r.Operator
      ∧ (r.withNot b).Not = b
      ∧ (r.withNot b).Actions = r.Actions
      ∧ (r.withNot b).SubRules = r.SubRules
      ∧ r.withNot r.Not = r := by
  cases r
  exact ⟨rfl, rfl, rfl, rfl, rfl, rfl, rfl⟩

theorem fetchEach_no_values (r : SecRule σ) (vrs : List (Variable σ))
    (h : ∀ vr ∈ vrs, ∀ t, (vr.Fetch t).1 = []) (w : World σ) :
    (fetchEach r vrs w).1 = [] := by
  induction vrs generalizing w with
  | nil => rfl
  | cons vr vrs ih =>
    have h1 : (callFetch vr w).1 = [] := h vr (List.mem_cons_self _ _) w.tx
    simp only [fetchEach, h1, transformEach, List.nil_append]
    exact ih (fun x hx => h x (List.mem_cons_of_mem _ hx)) _

/-- A rule without variables, or whose variables all fetch nothing, has no
value to test. -/
theorem FetchAll_no_values (r : SecRule σ) (w : World σ)
    (h : r.Variables = [] ∨ ∀ vr ∈ r.Variables, ∀ t, (vr.Fetch t).1 = []) :
    (r.FetchAllTransformedVariables w).1 = [] := by
  rw [FetchAll_eq]
  rcases h with h | h
  · rw [h]
    rfl
  · exact fetchEach_no_values r r.Variables h w

/-- C19: when the variables of a rule yield no value on a transaction, `Match`
returns false right after the fetch, without a call of the operator, whatever the
`Not` flag is set to (`b` is any value of the flag, the rule's own included); so
flipping `Not` does not flip the verdict, and `Do` calls no action either way. -/
theorem Match_without_values (r : SecRule σ) (w : World σ)
    (h : (r.FetchAllTransformedVariables w).1 = []) (b : Bool) :
    (r.withNot b).Match w = (false, (r.FetchAllTransformedVariables w).2)
      ∧ r.Match w = (false, (r.FetchAllTransformedVariables w).2)
      ∧ operatorCalls (r.FetchAllTransformedVariables w).2.log = operatorCalls w.log
      ∧ (r.withNot b).Do w = .ok (r.FetchAllTransformedVariables w).2
      ∧ actionCalls (r.FetchAllTransformedVariables w).2.log = actionCalls w.log := by
  obtain ⟨hV, hT, -, -, -, -, -⟩ := withNot_fields r b
  have hf : (r.withNot b).FetchAllTransformedVariables w = r.FetchAllTransformedVariables w :=
    FetchAll_congr r _ hV hT w
  have hm : (r.withNot b).Match w = (false, (r.FetchAllTransformedVariables w).2) := by
    simp only [SecRule.Match, hf, h, SecRule.matchLoop]
  have hr : r.Match w = (false, (r.FetchAllTransformedVariables w).2) := by
    simp only [SecRule.Match, h, SecRule.matchLoop]
  refine ⟨hm, hr, FetchAll_operatorCalls r w, ?_, ?_⟩
  · simp [SecRule.Do, hm]
  · have := Match_actionCalls r w
    rwa [hr] at this

theorem Match_without_values_witness :
    (exRule.Match exEmptyWorld).1 = false
      ∧ ((exRule.withNot true).Match exEmptyWorld
            = (false, (exRule.FetchAllTransformedVariables exEmptyWorld).2)
        ∧ exRule.Match exEmptyWorld
            = (false, (exRule.FetchAllTransformedVariables exEmptyWorld).2)
        ∧ operatorCalls (exRule.FetchAllTransformedVariables exEmptyWorld).2.log
            = operatorCalls exEmptyWorld.log
        ∧ (exRule.withNot true).Do exEmptyWorld
            = .ok (exRule.FetchAllTransformedVariables exEmptyWorld).2
        ∧ actionCalls (exRule.FetchAllTransformedVariables exEmptyWorld).2.log
            = actionCalls exEmptyWorld.log) :=
  ⟨by decide, Match_without_values exRule exEmptyWorld (by decide) true⟩

theorem exNoVars_never_fires :
    exNoVars.Not = true ∧ exNoVars.Match exWorld = (false, exWorld)
      ∧ (exNoVars.withNot false).Match exWorld = (false, exWorld) :=
  ⟨rfl, rfl, rfl⟩

/-! ## The core changes the transaction by its calls alone -/

theorem applyCalls_append (a b : List (Event σ)) (tx : Transaction σ) :
    applyCalls (a ++ b) tx = applyCalls b (applyCalls a tx) := by
  simp [applyCalls, List.foldl_append]

theorem CallsKeep_final {β : Type} (g : Transaction σ → β) (evs : List (Event σ))
    (tx : Transaction σ) (h : CallsKeep g evs tx) : g (applyCalls evs tx) = g tx := by
  induction evs generalizing tx with
  | nil => rfl
  | cons e es ih => exact (ih _ h.2).trans h.1

theorem byCallsAlone_of_calls {β : Type} (g : Transaction σ → β) (w w1 : World σ)
    (h : ∃ evs, w1.log = w.log ++ evs ∧ w1.tx = applyCalls evs w.tx) :
    ByCallsAlone g w w1 := by
  obtain ⟨evs, h1, h2⟩ := h
  have hc : callsSince w w1 = evs := by simp [callsSince, h1]
  refine ⟨by rw [hc, h1], by rw [hc, h2], fun hk => ?_⟩
  rw [hc] at hk
  rw [h2]
  exact CallsKeep_final g evs w.tx hk

/-- One more logged call keeps a world reachable from `w` by calls. -/
theorem reached_step (w w1 : World σ) (e : Event σ)
    (h : ∃ evs, w1.log = w.log ++ evs ∧ w1.tx = applyCalls evs w.tx) :
    ∃ evs, w1.log ++ [e] = w.log ++ evs ∧ e.apply w1.tx = applyCalls evs w.tx := by
  obtain ⟨evs, h1, h2⟩ := h
  refine ⟨evs ++ [e], by rw [h1, List.append_assoc], ?_⟩
  rw [applyCalls_append, ← h2]
  rfl

theorem ActionsExecute_invariant (I : World σ → Prop) (as : List (Action σ))
    (h : ∀ a ∈ as, ∀ w, I w → I (callDo a w)) (w : World σ) (hw : I w) :
    I (outcome (ActionsExecute w as)) := by
  by_cases hv : ValidGroups as
  · rw [ActionsExecute_ok w as hv, ← foldl_callDo]
    exact foldl_invariant I _ (dispatchOrder as)
      (fun a ha w1 hw1 => h a ((dispatchOrder_perm as hv).subset ha) w1 hw1) w hw
  · rw [ActionsExecute_panic w as hv]
    exact hw

theorem subRulesExecute_invariant (I : World σ → Prop) (subs : List (SecRule σ))
    (h : ∀ sub ∈ subs, ∀ a ∈ sub.Actions, ∀ w, I w → I (callDo a w))
    (w : World σ) (hw : I w) : I (outcome (SecRule.subRulesExecute subs w)) := by
  induction subs generalizing w with
  | nil => exact hw
  | cons sub rest ih =>
    have h1 := ActionsExecute_invariant I sub.Actions (h sub (List.mem_cons_self _ _)) w hw
    unfold SecRule.subRulesExecute
    cases hx : ActionsExecute w sub.Actions with
    | error w1 =>
      rw [hx] at h1
      exact h1
    | ok w1 =>
      rw [hx] at h1
      exact ih (fun s hs => h s (List.mem_cons_of_mem _ hs)) w1 h1

/-- An invariant of the world that every capability call keeps, is kept by `Do`. -/
theorem Do_invariant (I : World σ → Prop) (r : SecRule σ)
    (hF : ∀ (v : Variable σ) w, I w → I (callFetch v w).2)
    (hT : ∀ (f : Trans σ) w s, I w → I (callTrans f w s).2)
    (hM : ∀ (o : Operator σ) w v, I w → I (callMatch o w v).2)
    (hD : ∀ (a : Action σ) w, I w → I (callDo a w))
    (w : World σ) (hw : I w) : I (outcome (r.Do w)) := by
  have hmatch : ∀ (s : SecRule σ) w1, I w1 → I (s.Match w1).2 := fun s w1 h1 =>
    Match_invariant I s (fun v _ => hF v) (fun f _ => hT f) (hM s.Operator) w1 h1
  have h1 := hmatch r w hw
  have h2 : I (SecRule.subRulesMatch r.SubRules (r.Match w).2).2 :=
    subRulesMatch_invariant I r.SubRules (fun sub _ => hmatch sub) _ h1
  have h3 := ActionsExecute_invariant I r.Actions (fun a _ => hD a) _ h2
  unfold SecRule.Do
  split
  · exact h1
  · split
    · exact h2
    · cases hx : ActionsExecute (SecRule.subRulesMatch r.SubRules (r.Match w).2).2 r.Actions with
      | error w1 =>
        rw [hx] at h3
        exact h3
      | ok w1 =>
        rw [hx] at h3
        exact subRulesExecute_invariant I r.SubRules (fun _ _ a _ => hD a) w1 h3

theorem Process_invariant (I : World σ → Prop) (rs : SecRuleSet σ) (phase offset : Int)
    (hdo : ∀ (r : SecRule σ) w, I w → I (outcome (r.Do w)))
    (w : World σ) (hw : I w) : I (outcome (rs.Process w phase offset)) := by
  obtain ⟨hge, hnil, hneg, hin⟩ := Process_cases rs w phase offset
  by_cases h1 : ((rs.bucket phase).length : Int) ≤ offset
  · rw [hge h1]
    exact hw
  · by_cases h0 : 0 ≤ offset
    · obtain ⟨rule, -, -, hrun⟩ := hin h0 (by omega)
      rw [hrun]
      exact hdo rule w hw
    · by_cases hP : rs.Phases = none
      · rw [hnil hP]
        exact hw
      · rw [hneg hP (by omega)]
        exact hw

theorem set_same {α : Type} (p : List α) (i : Nat) (x : α) (h : p[i]? = some x) :
    p.set i x = p := by
  apply List.ext_getElem?
  intro j
  rw [List.getElem?_set]
  by_cases hij : i = j
  · subst hij
    have hlt : i < p.length := by
      rcases Nat.lt_or_ge i p.length with hlt | hge
      · exact hlt
      · rw [List.getElem?_eq_none hge] at h
        exact absurd h (by simp)
    simp [hlt, h]
  · simp [hij]

/-- `Process` leaves its receiver, the rule set, as it was. -/
theorem ProcessRecv_eq (rs : SecRuleSet σ) (w : World σ) (phase offset : Int) :
    rs.ProcessRecv w phase offset = (rs, rs.Process w phase offset) := by
  rcases rs with ⟨_ | m, D⟩
  · rfl
  · simp only [SecRuleSet.ProcessRecv, SecRuleSet.Process]
    split
    · cases hs : sliceIndex (m phase) offset with
      | none => rfl
      | some rule =>
        have hget : (m phase)[offset.toNat]? = some rule := by
          unfold sliceIndex at hs
          split at hs
          · exact hs
          · exact absurd hs (by simp)
        have hm : (fun q => if q = phase then (m phase).set offset.toNat (rule.DoRecv w).1
            else m q) = m := by
          funext q
          by_cases hq : q = phase
          · subst hq
            simp [SecRule.DoRecv, SecRule.MatchRecv, set_same _ _ _ hget]
          · simp [hq]
        simp only [hm]
        rfl
    · rfl

/-- C18: `Match`, `Do`, `ActionsExecute`, `ExecuteDefaultActions` and `Process`
change the transaction by the capability calls they make and by nothing else,
whether they return or panic: the transaction they leave is the one they got after
the calls made, in order; so if every call made during the operation leaves the
abort flag unchanged (`g` the abort flag), the flag is as it was, and if every
call made leaves the transaction unchanged (`g` the identity), the transaction is
as it was.  The rule and the rule set, receivers of these methods, are left as
they were. -/
theorem core_changes_only_by_calls {β : Type} (g : Transaction σ → β) (w : World σ) :
    (∀ r : SecRule σ, ByCallsAlone g w (r.Match w).2 ∧ (r.MatchRecv w).1 = r)
      ∧ (∀ r : SecRule σ, ByCallsAlone g w (outcome (r.Do w)) ∧ (r.DoRecv w).1 = r)
      ∧ (∀ as : List (Action σ), ByCallsAlone g w (outcome (ActionsExecute w as)))
      ∧ (∀ rs : SecRuleSet σ, ByCallsAlone g w (outcome (rs.ExecuteDefaultActions w))
          ∧ (rs.ExecuteDefaultActionsRecv w).1 = rs)
      ∧ (∀ (rs : SecRuleSet σ) (phase offset : Int),
          ByCallsAlone g w (outcome (rs.Process w phase offset))
            ∧ (rs.ProcessRecv w phase offset).1 = rs) := by
  have h0 : ∃ evs, w.log = w.log ++ evs ∧ w.tx = applyCalls evs w.tx := ⟨[], by simp, rfl⟩
  have hF : ∀ (v : Variable σ) (w1 : World σ),
      (∃ evs, w1.log = w.log ++ evs ∧ w1.tx = applyCalls evs w.tx) →
      ∃ evs, (callFetch v w1).2.log = w.log ++ evs ∧ (callFetch v w1).2.tx = applyCalls evs w.tx :=
    fun v w1 h => reached_step w w1 (Event.fetch v) h
  have hT : ∀ (f : Trans σ) (w1 : World σ) (s : String),
      (∃ evs, w1.log = w.log ++ evs ∧ w1.tx = applyCalls evs w.tx) →
      ∃ evs, (callTrans f w1 s).2.log = w.log ++ evs
        ∧ (callTrans f w1 s).2.tx = applyCalls evs w.tx :=
    fun f w1 s h => reached_step w w1 (Event.trans f s) h
  have hM : ∀ (o : Operator σ) (w1 : World σ) (v : String),
      (∃ evs, w1.log = w.log ++ evs ∧ w1.tx = applyCalls evs w.tx) →
      ∃ evs, (callMatch o w1 v).2.log = w.log ++ evs
        ∧ (callMatch o w1 v).2.tx = applyCalls evs w.tx :=
    fun o w1 v h => reached_step w w1 (Event.operatorMatch o v) h
  have hD : ∀ (a : Action σ) (w1 : World σ),
      (∃ evs, w1.log = w.log ++ evs ∧ w1.tx = applyCalls evs w.tx) →
      ∃ evs, (callDo a w1).log = w.log ++ evs ∧ (callDo a w1).tx = applyCalls evs w.tx :=
    fun a w1 h => reached_step w w1 (Event.actionDo a) h
  have hdo : ∀ (r : SecRule σ) (w1 : World σ),
      (∃ evs, w1.log = w.log ++ evs ∧ w1.tx = applyCalls evs w.tx) →
      ∃ evs, (outcome (r.Do w1)).log = w.log ++ evs
        ∧ (outcome (r.Do w1)).tx = applyCalls evs w.tx :=
    fun r w1 h => Do_invariant
      (fun w2 => ∃ evs, w2.log = w.log ++ evs ∧ w2.tx = applyCalls evs w.tx) r hF hT hM hD w1 h
  refine ⟨fun r => ⟨byCallsAlone_of_calls g w _ ?_, rfl⟩,
    fun r => ⟨byCallsAlone_of_calls g w _ (hdo r w h0), rfl⟩,
    fun as => byCallsAlone_of_calls g w _ ?_,
    fun rs => ⟨byCallsAlone_of_calls g w _ ?_, rfl⟩,
    fun rs phase offset => ⟨byCallsAlone_of_calls g w _ ?_, ?_⟩⟩
  · exact Match_invariant
      (fun w2 => ∃ evs, w2.log = w.log ++ evs ∧ w2.tx = applyCalls evs w.tx) r
      (fun v _ => hF v) (fun f _ => hT f) (hM r.Operator) w h0
  · exact ActionsExecute_invariant
      (fun w2 => ∃ evs, w2.log = w.log ++ evs ∧ w2.tx = applyCalls evs w.tx) as
      (fun a _ => hD a) w h0
  · exact ActionsExecute_invariant
      (fun w2 => ∃ evs, w2.log = w.log ++ evs ∧ w2.tx = applyCalls evs w.tx) rs.DefaultActions
      (fun a _ => hD a) w h0
  · exact Process_invariant
      (fun w2 => ∃ evs, w2.log = w.log ++ evs ∧ w2.tx = applyCalls evs w.tx) rs phase offset
      hdo w h0
  · rw [ProcessRecv_eq]

theorem core_changes_only_by_calls_witness :
    (exDisruptiveB ∈ exRule.Actions ∧ (exDisruptiveB.Do exFine.tx).Abort = true)
      ∧ (exRule.Match exFine).1 = false
      ∧ CallsKeep Transaction.Abort (callsSince exFine (outcome (exRule.Do exFine))) exFine.tx
      ∧ (outcome (exRule.Do exFine)).tx.Abort = exFine.tx.Abort
      ∧ (exMixedSet.bucket PhaseRequestHeaders).map SecRule.Id = [10, 1]
      ∧ (callsSince exWorld
          (outcome (exMixedSet.Process exWorld PhaseRequestHeaders 0))).length = 9
      ∧ (outcome (exMixedSet.Process exWorld PhaseRequestHeaders 0)).tx.Abort
          = exWorld.tx.Abort
      ∧ (exMixedSet.ProcessRecv exWorld PhaseRequestHeaders 0).1 = exMixedSet :=
  ⟨⟨by simp [exRule, SecRule.Actions], rfl⟩, by decide, by decide,
    ((core_changes_only_by_calls Transaction.Abort exFine).2.1 exRule).1.2.2 (by decide),
    by decide, by decide,
    ((core_changes_only_by_calls Transaction.Abort exWorld).2.2.2.2 exMixedSet
      PhaseRequestHeaders 0).1.2.2 (by decide),
    ((core_changes_only_by_calls Transaction.Abort exWorld).2.2.2.2 exMixedSet
      PhaseRequestHeaders 0).2⟩

end modsecurity
